import Mathlib

/-!
Verification of the cargo-refix core against its specification.

Embedding conventions:
* Rust `String`/`&str` values are embedded as `List Char`; all ranges and
  indices are byte offsets, exactly as in the Rust source (`Char.utf8Size`
  gives the UTF-8 width of a character).
* A Rust panic (failed `assert!`, out-of-bounds slice, explicit `panic!`)
  is embedded as the `none` case of an outer `Option` layer; recoverable
  `Result` values are embedded as `Except`.
* The external `regex` crate is not part of this repository; operations
  that consult it take an abstract `RegexEngine` record of search/replace
  functions as a parameter.
-/

namespace Refix

/-- Byte length of a string embedded as a character list. -/

def byteLen (s : List Char) : Nat := (s.map Char.utf8Size).sum

/-- The `char_indices` iterator: each character paired with its byte
offset, starting from byte offset `base`. -/
def charIdx (base : Nat) : List Char → List (Nat × Char)
  | [] => []
  | c :: cs => (base, c) :: charIdx (base + c.utf8Size) cs

/-- All valid char-boundary byte offsets of a string: offset 0 plus the
offset just past each character. -/
def boundariesList (s : List Char) : List Nat :=
  0 :: (charIdx 0 s).map (fun p => p.1 + p.2.utf8Size)

/-- `str::is_char_boundary`. -/
def isBoundary (s : List Char) (i : Nat) : Bool :=
  (boundariesList s).contains i

/-- Split a character list at a byte offset; `none` when the offset is
not on a character boundary (the situation in which Rust slicing panics). -/
def byteSplitAt (n : Nat) : List Char → Option (List Char × List Char)
  | [] => if n = 0 then some ([], []) else none
  | c :: cs =>
    if n = 0 then some ([], c :: cs)
    else if n < c.utf8Size then none
    else (byteSplitAt (n - c.utf8Size) cs).map (fun p => (c :: p.1, p.2))

/-- Slice `s[a..b]` (byte offsets), as (before, middle, after); `none`
models the Rust slicing panic on an invalid range. -/
def byteSlice (s : List Char) (a b : Nat) : Option (List Char × List Char × List Char) :=
  if a ≤ b then
    match byteSplitAt a s with
    | none => none
    | some (pre, rest) =>
      match byteSplitAt (b - a) rest with
      | none => none
      | some (mid, post) => some (pre, mid, post)
  else none

/-- `String::replace_range`: replace the byte range `a..b` of `s` with
`ins`; `none` models the Rust panic on an invalid range. -/
def replaceRange (s : List Char) (a b : Nat) (ins : List Char) : Option (List Char) :=
  (byteSlice s a b).map (fun t => t.1 ++ ins ++ t.2.2)





/-! ## text.rs: bracket matcher -/

/-- The four recognized bracket pairs (text.rs `PARENS`). -/
def PARENS : List (Char × Char) := [('(', ')'), ('[', ']'), ('{', '}'), ('<', '>')]

/-- text.rs `other_paren`: returns (other paren, this paren is opening). -/
def other_paren (paren : Char) : Option (Char × Bool) :=
  match PARENS.find? (fun p => p.1 == paren) with
  | some p => some (p.2, true)
  | none =>
    match PARENS.find? (fun p => p.2 == paren) with
    | some p => some (p.1, false)
    | none => none

/-- Forward scan of `find_matching_paren` for an opening bracket: walk the
(byte offset, char) pairs keeping a stack of expected closing brackets. -/
def fwdScan : List (Nat × Char) → List Char → Option Nat
  | [], _ => none
  | (i, c) :: rest, stk =>
    match other_paren c with
    | none => fwdScan rest stk
    | some (other, true) => fwdScan rest (other :: stk)
    | some (_, false) =>
      match stk with
      | [] => none
      | top :: stk' =>
        if top ≠ c then none
        else if stk' = [] then some i
        else fwdScan rest stk'

/-- Backward scan of `find_matching_paren` for a closing bracket: walk the
reversed (byte offset, char) pairs keeping a stack of expected openers. -/
def bwdScan : List (Nat × Char) → List Char → Option Nat
  | [], _ => none
  | (i, c) :: rest, stk =>
    match other_paren c with
    | none => bwdScan rest stk
    | some (other, false) => bwdScan rest (other :: stk)
    | some (_, true) =>
      match stk with
      | [] => none
      | top :: stk' =>
        if top ≠ c then none
        else if stk' = [] then some i
        else bwdScan rest stk'

/-- text.rs `find_matching_paren`. Outer `none` is the panic on the two
char-boundary preconditions (and on the impossible missing-char lookup);
`some none` is a no-match result; `some (some j)` a successful match. -/
def find_matching_paren (context : List Char) (index : Nat) : Option (Option Nat) :=
  if ¬ isBoundary context index then none
  else if ¬ isBoundary context (index + 1) then none
  else
    match List.lookup index (charIdx 0 context) with
    | none => none
    | some paren =>
      match other_paren paren with
      | none => some none
      | some (end_paren, opening) =>
        let ps := charIdx 0 context
        if opening then
          some (fwdScan (ps.filter (fun p => index + 1 ≤ p.1)) [end_paren])
        else
          some (bwdScan ((ps.filter (fun p => p.1 < index)).reverse) [end_paren])

/-- The mirror image of a bracket character (partner bracket); identity on
non-bracket characters. -/
def flipP (c : Char) : Char :=
  match other_paren c with
  | some p => p.1
  | none => c

/-- Mirror a (byte offset, char) entry. -/
def flipE (p : Nat × Char) : Nat × Char := (p.1, flipP p.2)

/-- A (byte offset, char) sequence whose bracket characters form a
properly nested, type-correct bracket sequence. -/
inductive BalL : List (Nat × Char) → Prop where
  | nil : BalL []
  | skip {c : Char} {i : Nat} {l : List (Nat × Char)} :
      other_paren c = none → BalL l → BalL ((i, c) :: l)
  | pair {o cl : Char} {i j : Nat} {inner rest : List (Nat × Char)} :
      other_paren o = some (cl, true) → BalL inner → BalL rest →
      BalL ((i, o) :: inner ++ (j, cl) :: rest)

/-- The consumed portion of a successful forward scan: a word that closes
the whole stack `stk`, one balanced block plus matching closer per stack
entry, ending exactly at the final closer. -/
inductive ClosesAllL : List (Nat × Char) → List Char → Prop where
  | nil : ClosesAllL [] []
  | cons {b w : List (Nat × Char)} {e : Char} {j : Nat} {stk : List Char} :
      BalL b → ClosesAllL w stk → ClosesAllL (b ++ (j, e) :: w) (e :: stk)

/-- apply.rs `Patch`: the byte range to replace (`location`) and the new
bytes. -/
structure Patch where
  locationStart : Nat
  locationEnd : Nat
  bytes : List Nat
deriving DecidableEq

/-- apply.rs `Change`: a file name paired with a patch. -/
structure Change where
  file : String
  patch : Patch
deriving DecidableEq

instance : IsTotal Patch (fun a b => a.locationStart ≤ b.locationStart) :=
  ⟨fun _ _ => Nat.le_total _ _⟩

instance : IsTrans Patch (fun a b => a.locationStart ≤ b.locationStart) :=
  ⟨fun _ _ _ => Nat.le_trans⟩

/-- The stable ascending sort by `location.start` performed by
`FileChangeSet::group` (`sort_by_key` is a stable sort; insertion sort is
the stable sort of that key). -/
def sortPatches (ps : List Patch) : List Patch :=
  ps.insertionSort (fun a b => a.locationStart ≤ b.locationStart)

/-- The `assert!` over `array_windows`: every adjacent pair of the sorted
patches must satisfy `a.location.end <= b.location.start`. -/
def checkNonOverlapping : List Patch → Bool
  | [] => true
  | [_] => true
  | a :: b :: rest =>
    a.locationEnd ≤ b.locationStart && checkNonOverlapping (b :: rest)

/-- The distinct files of a change list. The Rust code groups with a
`HashMap`, whose iteration order is unspecified; the claims proved below
do not depend on the enumeration order of the per-file groups. -/
def filesOf (changes : List Change) : List String :=
  (changes.map Change.file).dedup

/-- The patches destined for one file, in producer order. -/
def patchesFor (file : String) (changes : List Change) : List Patch :=
  (changes.filter (fun c => c.file = file)).map Change.patch

/-- Per-file half of apply.rs `FileChangeSet::group`: stable-sort by start
offset and check the non-overlap assertion; `none` models the panicking
`assert!`. -/
def groupFile (ps : List Patch) : Option (List Patch) :=
  let sorted := sortPatches ps
  if checkNonOverlapping sorted then some sorted else none

/-- apply.rs `FileChangeSet::group`: group changes by file and run the
per-file sorting and validation; `none` models the panic. -/
def collectSets : List String → List Change → Option (List (String × List Patch))
  | [], _ => some []
  | f :: rest, changes =>
    (groupFile (patchesFor f changes)).bind (fun ps =>
      (collectSets rest changes).bind (fun others => some ((f, ps) :: others)))

def groupAll (changes : List Change) : Option (List (String × List Patch)) :=
  collectSets (filesOf changes) changes

/-- One `Vec::splice` step of `FileChangeSet::write`; `none` models the
panic on a range that does not lie inside the buffer. -/
def splicePatch (buffer : List Nat) (p : Patch) : Option (List Nat) :=
  if p.locationStart ≤ p.locationEnd ∧ p.locationEnd ≤ buffer.length then
    some (buffer.take p.locationStart ++ p.bytes ++ buffer.drop p.locationEnd)
  else none

/-- apply.rs `FileChangeSet::write` on in-memory contents: splice the
patches in reverse (descending start) order. -/
def writeFileChanges (buffer : List Nat) (ps : List Patch) : Option (List Nat) :=
  ps.reverse.foldlM splicePatch buffer

/-- The write phase at the end of main.rs: write every grouped file change
set, returning the new contents per file; `none` models a panic. -/
def writeAll (fs : String → List Nat) :
    List (String × List Patch) → Option (List (String × List Nat))
  | [] => some []
  | (f, ps) :: rest =>
    (writeFileChanges (fs f) ps).bind (fun buf =>
      (writeAll fs rest).bind (fun others => some ((f, buf) :: others)))

/-- The aggregation-plus-write tail of main.rs: group all accumulated
changes (a panicking assert aborts everything), then write the files when
`write` mode is on, or write nothing in dry-run mode. -/
def runWrites (fs : String → List Nat) (write : Bool) (changes : List Change) :
    Option (List (String × List Nat)) :=
  match groupAll changes with
  | none => none
  | some sets => if write then writeAll fs sets else some []

/-- operation.rs `TextOperation` (one constructor per mnemonic). -/
inductive TextOperation where
  | StackDrop
  | StackDup
  | StackPush
  | Whole
  | Original
  | MatchingParen
  | Parens
  | Extend
  | First
  | Previous
  | Next
  | Zero
  | Narrow
  | Delete
  | Replace
  | Substitute
  | SubstituteAll
deriving DecidableEq

/-- operation.rs `ExecError`. The `regex::Error` cause carried by
`InvalidRegex` comes from the external regex crate and is not modelled;
only the offending pattern text is kept. -/
inductive ExecError where
  | UnknownOp : String → ExecError
  | InvalidRegex : List Char → ExecError
  | NoMatches : TextOperation → ExecError
  | NotEnoughArguments : TextOperation → Nat → ExecError
  | StackUnderflow : TextOperation → ExecError
deriving DecidableEq

deriving instance DecidableEq for Except

/-- operation.rs `ExecError::stop_all`: every error except `NoMatches`
aborts the whole run. -/
def ExecError.stop_all : ExecError → Bool
  | .NoMatches _ => false
  | _ => true

/-- ASCII letter, the first-character class of a `$name` template token. -/
def isAsciiLetter (c : Char) : Bool :=
  (decide ('A' ≤ c) && decide (c ≤ 'Z')) || (decide ('a' ≤ c) && decide (c ≤ 'z'))

/-- Identifier continuation class `[A-Za-z0-9_]` of a `$name` token. -/
def isIdentChar (c : Char) : Bool :=
  isAsciiLetter c || (decide ('0' ≤ c) && decide (c ≤ '9')) || decide (c = '_')

/-- The match scan of text.rs `template`: all matches of the fixed regex
for `$name` and `$\x7bname\x7d` tokens collected left to right, as
(byte start, byte end, identifier text) triples, with the regex crate's
leftmost-first, non-overlapping semantics. When a dollar sign is not
followed by a letter, or `${` is not followed by a nonempty brace-free
run and a closing brace, there is no match at this position and scanning
resumes after the dollar sign. (When nonempty, the `dropWhile` residue
necessarily starts with the closing brace, which the match consumes.)
The first argument is recursion fuel: every step strictly shortens the
character list, so fuel equal to the initial length never runs out. -/
def scanTemplatesF : Nat → Nat → List Char → List (Nat × Nat × List Char)
  | 0, _, _ => []
  | _, _, [] => []
  | fuel + 1, pos, '$' :: c :: rest2 =>
    if isAsciiLetter c then
      (pos, pos + 1 + byteLen (c :: rest2.takeWhile isIdentChar),
        c :: rest2.takeWhile isIdentChar)
        :: scanTemplatesF fuel (pos + 1 + byteLen (c :: rest2.takeWhile isIdentChar))
            (rest2.dropWhile isIdentChar)
    else if c = '{' then
      if (rest2.takeWhile (fun d => !decide (d = '}'))).length = 0 ∨
          (rest2.dropWhile (fun d => !decide (d = '}'))).length = 0 then
        scanTemplatesF fuel (pos + 1) (c :: rest2)
      else
        (pos, pos + 3 + byteLen (rest2.takeWhile (fun d => !decide (d = '}'))),
          rest2.takeWhile (fun d => !decide (d = '}')))
          :: scanTemplatesF fuel
              (pos + 3 + byteLen (rest2.takeWhile (fun d => !decide (d = '}'))))
              ((rest2.dropWhile (fun d => !decide (d = '}'))).tail)
    else scanTemplatesF fuel (pos + 1) (c :: rest2)
  | fuel + 1, pos, c :: rest => scanTemplatesF fuel (pos + c.utf8Size) rest

/-- The match scan, with enough fuel for the whole input. -/
def scanTemplates (pos : Nat) (l : List Char) : List (Nat × Nat × List Char) :=
  scanTemplatesF l.length pos l

/-- The resolver loop of text.rs `template`: query the resolver on each
match in order (threading the resolver's mutable state, i.e. the stack),
keeping (range, replacement) for each resolved identifier. -/
def collectRepl {σ : Type}
    (resolver : List Char → σ → Except ExecError (Option (List Char) × σ)) :
    List (Nat × Nat × List Char) → σ →
      Except ExecError (List ((Nat × Nat) × List Char) × σ)
  | [], st => .ok ([], st)
  | (s, e, ident) :: ms, st =>
    match resolver ident st with
    | .error err => .error err
    | .ok (none, st2) => collectRepl resolver ms st2
    | .ok (some rep, st2) =>
      match collectRepl resolver ms st2 with
      | .error err => .error err
      | .ok (rest, st3) => .ok (((s, e), rep) :: rest, st3)

/-- The application loop of text.rs `template`: pop collected
replacements from the back (highest offset first) and `replace_range`
each into the result. -/
def applyRepls (s : List Char) (repls : List ((Nat × Nat) × List Char)) :
    Option (List Char) :=
  repls.reverse.foldlM (fun acc r => replaceRange acc r.1.1 r.1.2 r.2) s

/-- text.rs `template`. Outer `none` models a `replace_range` panic
(unreachable for ranges produced by the scanner); the `Except` carries a
resolver failure. -/
def template {σ : Type} (tmpl : List Char)
    (resolver : List Char → σ → Except ExecError (Option (List Char) × σ))
    (st : σ) : Option (Except ExecError (List Char × σ)) :=
  match collectRepl resolver (scanTemplates 0 tmpl) st with
  | .error err => some (.error err)
  | .ok (repls, st2) =>
    match applyRepls tmpl repls with
    | none => none
    | some out => some (.ok (out, st2))

/-- A stateless resolver, as used by the text.rs unit tests and by C10's
examples. -/
def pureResolver (f : List Char → Option (List Char)) :
    List Char → Unit → Except ExecError (Option (List Char) × Unit) :=
  fun name _ => .ok (f name, ())

/-- Interface of the external regex crate as used by the interpreter.
A compiled regex is represented by its pattern text; `compiles` is
`Regex::new` succeeding. `find`/`find_at` return a match byte range in
the given haystack (`find_at` with the given start lower bound);
`findLast` is `find_iter(..).last()`. `replaceFirst`/`replaceAll` take
pattern, haystack slice and (template-expanded) replacement string and
return the rewritten slice, performing the crate's own capture-group
expansion internally. -/
structure RegexEngine where
  compiles : List Char → Bool
  find : List Char → List Char → Option (Nat × Nat)
  find_at : List Char → List Char → Nat → Option (Nat × Nat)
  findLast : List Char → List Char → Option (Nat × Nat)
  replaceFirst : List Char → List Char → List Char → List Char
  replaceAll : List Char → List Char → List Char → List Char

/-- A trivial engine instance for concrete evaluations that use no
regex operation. -/
def trivialEngine : RegexEngine where
  compiles := fun _ => true
  find := fun _ _ => none
  find_at := fun _ _ _ => none
  findLast := fun _ _ => none
  replaceFirst := fun _ t _ => t
  replaceAll := fun _ t _ => t

/-- The interpreter state mutated by `TextOperation::apply`: the string
stack (list head = top of the Rust `Vec`) and the text buffer. -/
structure InterpState where
  stack : List (List Char)
  haystack : List Char
deriving DecidableEq

/-- The `template_resolver` closure of `TextOperation::apply`: `top`
peeks the stack, `pop` pops it, both failing with `StackUnderflow`;
other names are left unresolved. -/
def templateResolver (op : TextOperation) (name : List Char)
    (stack : List (List Char)) :
    Except ExecError (Option (List Char) × List (List Char)) :=
  if name = "top".toList then
    match stack with
    | [] => .error (.StackUnderflow op)
    | v :: _ => .ok (some v, stack)
  else if name = "pop".toList then
    match stack with
    | [] => .error (.StackUnderflow op)
    | v :: rest => .ok (some v, rest)
  else .ok (none, stack)

/-- The backward walk of the `parens` loop: decrement the selection
start until it lands on a character boundary. -/
def walkBack (haystack : List Char) : Nat → Nat
  | 0 => 0
  | k + 1 => if isBoundary haystack k then k else walkBack haystack k

/-- The `parens` operation loop: probe the current start with the
bracket matcher, returning the enclosing span on success, walking the
start back one character on failure, and failing with `NoMatches` once
the start has reached 0 without a match. The first argument is recursion
fuel; the probed start strictly decreases, so fuel `start + 1` never
runs out. -/
def parensLoopF (haystack : List Char) : Nat → Nat → Option (Except ExecError (Nat × Nat))
  | 0, _ => none
  | fuel + 1, start =>
    match find_matching_paren haystack start with
    | none => none
    | some (some mp) =>
      some (.ok (if mp < start then (mp, start + 1) else (start, mp + 1)))
    | some none =>
      if start = 0 then some (.error (.NoMatches .Parens))
      else parensLoopF haystack fuel (walkBack haystack start)

/-- operation.rs `TextOperation::apply`. Arguments are the verbatim
argument tokens (exactly `argc` of them, supplied by `Operation::run`).
Outer `none` models a panic (bad slice index or a bracket-matcher
precondition violation); the result carries the new selection and the
mutated stack and buffer. -/
def TextOperation.apply (op : TextOperation) (engine : RegexEngine)
    (st : InterpState) (original_span span : Nat × Nat)
    (args : List (List Char)) :
    Option (Except ExecError ((Nat × Nat) × InterpState)) :=
  match op with
  | .StackDrop =>
    match st.stack with
    | [] => some (.error (.StackUnderflow .StackDrop))
    | _ :: rest => some (.ok (span, { st with stack := rest }))
  | .StackDup =>
    match st.stack with
    | [] => some (.error (.StackUnderflow .StackDup))
    | v :: rest => some (.ok (span, { st with stack := v :: v :: rest }))
  | .StackPush =>
    match byteSlice st.haystack span.1 span.2 with
    | none => none
    | some (_, mid, _) => some (.ok (span, { st with stack := mid :: st.stack }))
  | .Whole => some (.ok ((0, byteLen st.haystack), st))
  | .Original => some (.ok (original_span, st))
  | .MatchingParen =>
    if span.2 - span.1 ≠ 1 then some (.error (.NoMatches .MatchingParen))
    else
      match find_matching_paren st.haystack span.1 with
      | none => none
      | some none => some (.error (.NoMatches .MatchingParen))
      | some (some mp) => some (.ok ((mp, mp + 1), st))
  | .Parens =>
    match parensLoopF st.haystack (span.1 + 1) span.1 with
    | none => none
    | some (.error e) => some (.error e)
    | some (.ok sp) => some (.ok (sp, st))
  | .Extend =>
    match args.get? 0 with
    | none => none
    | some pat =>
      if ¬ engine.compiles pat then some (.error (.InvalidRegex pat))
      else
        match engine.find_at pat st.haystack span.2 with
        | none => some (.error (.NoMatches .Extend))
        | some (ms, me) =>
          if ms = span.2 then some (.ok ((span.1, me), st))
          else some (.ok (span, st))
  | .First =>
    match args.get? 0 with
    | none => none
    | some pat =>
      if ¬ engine.compiles pat then some (.error (.InvalidRegex pat))
      else
        match engine.find pat st.haystack with
        | none => some (.error (.NoMatches .First))
        | some r => some (.ok (r, st))
  | .Previous =>
    match args.get? 0 with
    | none => none
    | some pat =>
      if ¬ engine.compiles pat then some (.error (.InvalidRegex pat))
      else
        match byteSplitAt span.1 st.haystack with
        | none => none
        | some (pre, _) =>
          match engine.findLast pat pre with
          | none => some (.error (.NoMatches .Previous))
          | some r => some (.ok (r, st))
  | .Next =>
    match args.get? 0 with
    | none => none
    | some pat =>
      if ¬ engine.compiles pat then some (.error (.InvalidRegex pat))
      else
        match engine.find_at pat st.haystack span.2 with
        | none => some (.error (.NoMatches .Next))
        | some r => some (.ok (r, st))
  | .Narrow =>
    match args.get? 0 with
    | none => none
    | some pat =>
      if ¬ engine.compiles pat then some (.error (.InvalidRegex pat))
      else
        match byteSplitAt span.2 st.haystack with
        | none => none
        | some (pre, _) =>
          match engine.find_at pat pre span.1 with
          | none => some (.error (.NoMatches .Narrow))
          | some r => some (.ok (r, st))
  | .Zero => some (.ok ((span.1, span.1), st))
  | .Delete =>
    match replaceRange st.haystack span.1 span.2 [] with
    | none => none
    | some h2 => some (.ok ((span.1, span.1), { st with haystack := h2 }))
  | .Replace =>
    match args.get? 0 with
    | none => none
    | some arg =>
      match template arg (templateResolver .Replace) st.stack with
      | none => none
      | some (.error e) => some (.error e)
      | some (.ok (value, stack2)) =>
        match replaceRange st.haystack span.1 span.2 value with
        | none => none
        | some h2 =>
          some (.ok ((span.1, span.1 + byteLen value),
            { stack := stack2, haystack := h2 }))
  | .Substitute =>
    match args.get? 0, args.get? 1 with
    | some pat, some arg =>
      if ¬ engine.compiles pat then some (.error (.InvalidRegex pat))
      else
        match byteSlice st.haystack span.1 span.2 with
        | none => none
        | some (_, mid, _) =>
          match template arg (templateResolver .Substitute) st.stack with
          | none => none
          | some (.error e) => some (.error e)
          | some (.ok (value, stack2)) =>
            let replaced := engine.replaceFirst pat mid value
            match replaceRange st.haystack span.1 span.2 replaced with
            | none => none
            | some h2 =>
              some (.ok ((span.1, span.1 + byteLen replaced),
                { stack := stack2, haystack := h2 }))
    | _, _ => none
  | .SubstituteAll =>
    match args.get? 0, args.get? 1 with
    | some pat, some arg =>
      if ¬ engine.compiles pat then some (.error (.InvalidRegex pat))
      else
        match byteSlice st.haystack span.1 span.2 with
        | none => none
        | some (_, mid, _) =>
          match template arg (templateResolver .SubstituteAll) st.stack with
          | none => none
          | some (.error e) => some (.error e)
          | some (.ok (value, stack2)) =>
            let replaced := engine.replaceAll pat mid value
            match replaceRange st.haystack span.1 span.2 replaced with
            | none => none
            | some h2 =>
              some (.ok ((span.1, span.1 + byteLen replaced),
                { stack := stack2, haystack := h2 }))
    | _, _ => none

/-- `TextOperation::from_str` with all strum serialization aliases. -/
def TextOperation.from_str (s : String) : Option TextOperation :=
  if s = "stack-drop" ∨ s = "s-drop" then some .StackDrop
  else if s = "stack-dup" ∨ s = "s-dup" then some .StackDup
  else if s = "stack-push" ∨ s = "s-push" ∨ s = "push" then some .StackPush
  else if s = "whole" then some .Whole
  else if s = "original" then some .Original
  else if s = "matching-paren" ∨ s = "mp" then some .MatchingParen
  else if s = "parens" then some .Parens
  else if s = "extend" ∨ s = "e" then some .Extend
  else if s = "first" ∨ s = "f" then some .First
  else if s = "previous" ∨ s = "prev" ∨ s = "p" then some .Previous
  else if s = "next" ∨ s = "n" then some .Next
  else if s = "zero" then some .Zero
  else if s = "narrow" ∨ s = "inner" then some .Narrow
  else if s = "delete" ∨ s = "d" then some .Delete
  else if s = "replace" then some .Replace
  else if s = "substitute" ∨ s = "sub" ∨ s = "s" then some .Substitute
  else if s = "substitute-all" ∨ s = "sub-all" ∨ s = "suba" ∨ s = "sa" then
    some .SubstituteAll
  else none

/-- The strum `argc` property of each mnemonic. -/
def TextOperation.argc : TextOperation → Nat
  | .Extend | .First | .Previous | .Next | .Narrow | .Replace => 1
  | .Substitute | .SubstituteAll => 2
  | _ => 0

/-- operation.rs `Operation` (the `suggestion` flag and the token
program). -/
structure Operation where
  suggestion : Bool
  ops : List String

/-- The token-consuming loop of `Operation::run`: parse the mnemonic
(`UnknownOp` on failure), pop its `argc` arguments
(`NotEnoughArguments` carrying the number actually available), apply,
and continue with the new selection and state. The first argument is
recursion fuel; each step consumes at least one token, so fuel equal to
the token count never runs out. -/
def runOpsF (engine : RegexEngine) (original_span : Nat × Nat) :
    Nat → List String → InterpState → (Nat × Nat) →
    Option (Except ExecError InterpState)
  | _, [], st, _ => some (.ok st)
  | 0, _ :: _, _, _ => none
  | fuel + 1, opStr :: rest, st, span =>
    match TextOperation.from_str opStr with
    | none => some (.error (.UnknownOp opStr))
    | some op =>
      if rest.length < op.argc then
        some (.error (.NotEnoughArguments op rest.length))
      else
        match op.apply engine st original_span span
            ((rest.take op.argc).map String.toList) with
        | none => none
        | some (.error e) => some (.error e)
        | some (.ok (span2, st2)) =>
          runOpsF engine original_span fuel (rest.drop op.argc) st2 span2

/-- operation.rs `Operation::run`: execute the token program over the
buffer with a fresh empty stack, starting from the given selection
(also snapshotted as `original_span`); returns the final buffer. -/
def Operation.run (op : Operation) (engine : RegexEngine)
    (haystack : List Char) (span : Nat × Nat) :
    Option (Except ExecError (List Char)) :=
  match runOpsF engine span op.ops.length op.ops ⟨[], haystack⟩ span with
  | none => none
  | some (.error e) => some (.error e)
  | some (.ok st) => some (.ok st.haystack)

/-- message.rs `SpanText`. -/
structure SpanText where
  highlight_start : Nat
  highlight_end : Nat
  text : List Char
deriving DecidableEq

/-- message.rs `SpanText::highlighted_span`: 1-indexed inclusive
highlight bounds to a 0-indexed half-open byte range. -/
def SpanText.highlighted_span (st : SpanText) : Nat × Nat :=
  (st.highlight_start - 1, st.highlight_end - 1)

/-- message.rs `SuggestionApplicability`. -/
inductive SuggestionApplicability where
  | MachineApplicable
  | MaybeIncorrect
  | HasPlaceholders
  | Unspecified
deriving DecidableEq

/-- message.rs `Span` (the fields the modelled code reads). -/
structure Span where
  file_name : String
  byte_start : Nat
  byte_end : Nat
  line_start : Nat
  text : List SpanText
  label : Option String
  is_primary : Bool
  suggested_replacement : Option (List Char)
  suggestion_applicability : Option SuggestionApplicability
deriving DecidableEq

/-- message.rs `Span::raw_text`: concatenation of the fragment texts. -/
def Span.raw_text (s : Span) : List Char := (s.text.map SpanText.text).flatten

/-- Modelled from the spec: `Span::outer_byte_range` is called by
`Operation::compute_diffs` but has no definition under src/; per the
specification the outer byte range is the full byte extent of the span,
`byte_start..byte_end`. -/
def Span.outer_byte_range (s : Span) : Nat × Nat := (s.byte_start, s.byte_end)

/-- message.rs `CompilerMessage` (recursive through `children`). The
`code` field flattens `CompilerMessageCode` to its optional text. -/
inductive CompilerMessage where
  | mk : Option String → String → String → List Span →
      List CompilerMessage → CompilerMessage

def CompilerMessage.code : CompilerMessage → Option String
  | .mk c _ _ _ _ => c

def CompilerMessage.level : CompilerMessage → String
  | .mk _ l _ _ _ => l

def CompilerMessage.message : CompilerMessage → String
  | .mk _ _ m _ _ => m

def CompilerMessage.spans : CompilerMessage → List Span
  | .mk _ _ _ s _ => s

def CompilerMessage.children : CompilerMessage → List CompilerMessage
  | .mk _ _ _ _ c => c

/-- message.rs `CompilerMessage::primary_spans`. -/
def CompilerMessage.primary_spans (m : CompilerMessage) : List Span :=
  m.spans.filter (fun s => s.is_primary)

/-- message.rs `CompilerMessage::help_items`: spans of help-level
children that carry a suggested replacement. -/
def CompilerMessage.help_items (m : CompilerMessage) : List Span :=
  ((m.children.filter (fun c => c.level = "help")).map
    (fun c => c.spans.filter (fun s => s.suggested_replacement.isSome))).flatten

/-- One eligible suggestion: highlight byte range of its single
fragment, replacement text, applicability. -/
def Sugg : Type := (Nat × Nat) × List Char × SuggestionApplicability

instance : DecidableEq Sugg := by
  unfold Sugg
  infer_instance

/-- message.rs `SpanAndSuggestions`. -/
structure SpanAndSuggestions where
  primary : Span
  suggestions : List Sugg
deriving DecidableEq

/-- message.rs `CompilerMessage::spans_with_suggestions`: per primary
span, the help suggestions whose raw text equals the primary's and that
have exactly one fragment, mapped to (highlight range, replacement,
applicability) and stable-sorted ascending by range start
(`sort_by_key`; the single fragment is read with a default that the
single-fragment filter makes unreachable, mirroring the `text[0]`
index). -/
def CompilerMessage.spans_with_suggestions (m : CompilerMessage) :
    List SpanAndSuggestions :=
  m.primary_spans.map (fun primary =>
    let suggestions : List Sugg :=
      (m.help_items.filter (fun s =>
        decide (primary.raw_text = s.raw_text) && decide (s.text.length = 1))).map
        (fun s =>
          ((s.text.headD ⟨1, 1, []⟩).highlighted_span,
            s.suggested_replacement.getD [],
            s.suggestion_applicability.getD .Unspecified))
    { primary := primary,
      suggestions := suggestions.insertionSort (fun x y => x.1.1 ≤ y.1.1) })

/-! ## operation.rs `Operation::compute_diffs` and the main.rs loop -/

/-- `str::bytes().collect()`: the UTF-8 byte encoding of a string. -/
def utf8Bytes (s : List Char) : List Nat :=
  (s.map (fun c => (String.utf8EncodeChar c).map UInt8.toNat)).flatten

/-- One step of the auto-suggestion fold in `Operation::compute_diffs`:
re-anchor the selection by the three-case rule and rewrite the fragment
text at the suggestion's byte range with its replacement text. In the
first case the source subtracts the replacement's byte length
(`s_text.len()`) from both `usize` selection offsets; whenever the
replacement is longer than an offset that subtraction underflows — a
panic in debug builds, a wrap in release builds, in neither a defined
re-anchored selection — so it is modelled as a panic (`none`). The
second case's subtraction is guarded by its branch condition and cannot
underflow. Outer `none` also models the `replace_range` panic on a
range that is invalid for the fragment text. -/
def applySuggestion (sel : Nat × Nat) (txt : List Char) (sugg : Sugg) :
    Option ((Nat × Nat) × List Char) :=
  let srange := sugg.1
  let stext := sugg.2.1
  let sel2? :=
    if srange.2 ≤ sel.1 then
      if sel.1 < byteLen stext ∨ sel.2 < byteLen stext then none
      else some (sel.1 - byteLen stext, sel.2 - byteLen stext)
    else if srange.2 ≤ sel.2 then
      some (srange.1, srange.1 + (sel.2 - srange.2))
    else if srange.1 ≤ sel.2 then
      some (min sel.1 srange.1, srange.1)
    else some sel
  sel2?.bind (fun sel2 =>
    (replaceRange txt srange.1 srange.2 stext).map (fun t2 => (sel2, t2)))

/-- The per-fragment body of `Operation::compute_diffs`: compute the
initial selection from the highlight range, optionally fold in the
(ascending-sorted) suggestions in reverse order, then run the program
on the fragment text. -/
def processFragment (op : Operation) (engine : RegexEngine)
    (suggestions : List Sugg) (part : SpanText) :
    Option (Except ExecError (List Char)) :=
  let start := (part.highlighted_span, part.text)
  let folded :=
    if op.suggestion then
      suggestions.reverse.foldlM
        (fun acc sugg => applySuggestion acc.1 acc.2 sugg) start
    else some start
  match folded with
  | none => none
  | some (sel, txt) => op.run engine txt sel

/-- The fragment loop of one primary span: run every fragment,
propagating the first error, and concatenate the results in order. -/
def processSpanParts (op : Operation) (engine : RegexEngine)
    (suggestions : List Sugg) :
    List SpanText → Option (Except ExecError (List Char))
  | [] => some (.ok [])
  | part :: rest =>
    match processFragment op engine suggestions part with
    | none => none
    | some (.error e) => some (.error e)
    | some (.ok t) =>
      match processSpanParts op engine suggestions rest with
      | none => none
      | some (.error e) => some (.error e)
      | some (.ok ts) => some (.ok (t ++ ts))

/-- The span loop of `Operation::compute_diffs`: a recoverable
`NoMatches` abandons only the current span (`continue 'spans`, no patch
emitted for it); any error with `stop_all` aborts the whole call with
`Err(())`; a successful span emits one `Change` over its outer byte
range with the concatenated replacement, UTF-8 encoded. -/
def computeDiffsSpans (op : Operation) (engine : RegexEngine) :
    List SpanAndSuggestions → Option (Except Unit (List Change))
  | [] => some (.ok [])
  | sas :: rest =>
    match processSpanParts op engine sas.suggestions sas.primary.text with
    | none => none
    | some (.error e) =>
      if e.stop_all then some (.error ())
      else computeDiffsSpans op engine rest
    | some (.ok newText) =>
      match computeDiffsSpans op engine rest with
      | none => none
      | some (.error ()) => some (.error ())
      | some (.ok changes) =>
        some (.ok (Change.mk sas.primary.file_name
          (Patch.mk sas.primary.outer_byte_range.1
            sas.primary.outer_byte_range.2 (utf8Bytes newText)) :: changes))

/-- operation.rs `Operation::compute_diffs`. -/
def Operation.compute_diffs (op : Operation) (engine : RegexEngine)
    (target : CompilerMessage) : Option (Except Unit (List Change)) :=
  computeDiffsSpans op engine target.spans_with_suggestions

/-- The diagnostic loop of main.rs: for every message passing the
gate (reason = compiler-message, `is_singular`, and the selector —
abstracted as the opaque predicate `shouldProcess`, as the spec treats
the selector as out of scope), accumulate the computed diffs; an
`Err(())` from `compute_diffs` breaks out of the loop keeping the
changes accumulated so far; the `single` flag stops after the first
processed message. The list mode and the preview printing are
reporting-only and not modelled. Outer `none` models a panic. -/
def collectChanges (op : Operation) (engine : RegexEngine)
    (shouldProcess : CompilerMessage → Bool) (single : Bool) :
    List CompilerMessage → Option (List Change)
  | [] => some []
  | m :: rest =>
    if shouldProcess m then
      match op.compute_diffs engine m with
      | none => none
      | some (.error ()) => some []
      | some (.ok cs) =>
        if single then some cs
        else (collectChanges op engine shouldProcess single rest).map
          (fun later => cs ++ later)
    else collectChanges op engine shouldProcess single rest

/-- The whole write path of main.rs: collect the changes from the
diagnostic stream, then aggregate and (in write mode) apply them. -/
def mainWrites (op : Operation) (engine : RegexEngine)
    (shouldProcess : CompilerMessage → Bool) (single : Bool)
    (fs : String → List Nat) (write : Bool) (msgs : List CompilerMessage) :
    Option (List (String × List Nat)) :=
  match collectChanges op engine shouldProcess single msgs with
  | none => none
  | some changeset => runWrites fs write changeset

/-- The three-case selection re-anchoring rule exactly as the
specification words it (the comparison definition for C5): if the
suggestion ends at or before the selection start, both endpoints shift
left by the replacement text's length; else if it ends within the
selection, the start becomes the suggestion's start and the length the
old trailing overlap; else if it starts at or before the selection end,
the end is clipped to the suggestion's start, collapsing the selection
if that would invert it. -/
def specReanchor (srange : Nat × Nat) (stext : List Char)
    (sel : Nat × Nat) : Nat × Nat :=
  if srange.2 ≤ sel.1 then
    (sel.1 - byteLen stext, sel.2 - byteLen stext)
  else if srange.2 ≤ sel.2 then
    (srange.1, srange.1 + (sel.2 - srange.2))
  else if srange.1 ≤ sel.2 then
    (if sel.1 ≤ srange.1 then sel.1 else srange.1, srange.1)
  else sel

instance : IsTotal Sugg (fun x y => x.1.1 ≤ y.1.1) :=
  ⟨fun _ _ => Nat.le_total _ _⟩

instance : IsTrans Sugg (fun x y => x.1.1 ≤ y.1.1) :=
  ⟨fun _ _ _ => Nat.le_trans⟩

/-- A diagnostic whose only primary span has no fragments: the
interpreter never runs and an empty replacement patch over the outer
byte range 0..2 of file "f" is emitted. -/
def exampleMsgEmpty : CompilerMessage :=
  .mk none "error" "m1" [⟨"f", 0, 2, 1, [], none, true, none, none⟩] []

/-- A diagnostic with one ordinary fragment; running the program
`["stack-drop"]` on it underflows the (fresh, empty) stack. -/
def exampleMsgUnderflow : CompilerMessage :=
  .mk none "error" "m2"
    [⟨"f", 4, 6, 2, [⟨1, 1, "ab".toList⟩], none, true, none, none⟩] []

/-- A diagnostic with two primary spans: the first has no fragments, so
its fragment loop trivially succeeds; the second has one ordinary
fragment on which the program `["stack-drop"]` underflows the (fresh,
empty) stack — the fatal error arises at the diagnostic's second
span. -/
def exampleMsgUnderflow2 : CompilerMessage :=
  .mk none "error" "m2b"
    [⟨"f", 4, 6, 2, [], none, true, none, none⟩,
     ⟨"f", 4, 6, 2, [⟨1, 1, "ab".toList⟩], none, true, none, none⟩] []

/-- The shared operation program of the counterexample run. -/
def exampleProgram : Operation := ⟨false, ["stack-drop"]⟩

/-- Concrete file contents for the counterexample run. -/
def exampleFs : String → List Nat := fun _ => [97, 98, 99]

/-- A diagnostic with one primary span and one eligible suggestion in a
help child (same raw text, single fragment), for C5's witness. -/
def exampleMsgSugg : CompilerMessage :=
  .mk none "error" "m3"
    [⟨"g", 0, 2, 1, [⟨1, 3, "xy".toList⟩], none, true, none, none⟩]
    [.mk none "help" "h"
      [⟨"g", 0, 2, 1, [⟨1, 2, "xy".toList⟩], none, false,
        some ("z".toList), some .MachineApplicable⟩] []]

/-! ### C1, C2: error handling across the run -/

/-! ## Theorems -/

/-! ### Properties of `other_paren` -/

theorem other_paren_open_mem {c cl : Char}
    (h : other_paren c = some (cl, true)) : (c, cl) ∈ PARENS := by
  unfold other_paren at h
  rcases hf : PARENS.find? (fun p => p.1 == c) with _ | p0
  · rw [hf] at h
    rcases hg : PARENS.find? (fun p => p.2 == c) with _ | q0 <;>
      rw [hg] at h <;> simp at h
  · rw [hf] at h
    simp only [Option.some.injEq, Prod.mk.injEq] at h
    have hm := List.mem_of_find?_eq_some hf
    have hp := List.find?_some hf
    simp only [beq_iff_eq] at hp
    have : (c, cl) = p0 := by
      rcases p0 with ⟨a, b⟩
      simp only at hp h
      rw [← hp, ← h.1]
    rwa [this]

theorem other_paren_close_mem {c o : Char}
    (h : other_paren c = some (o, false)) : (o, c) ∈ PARENS := by
  unfold other_paren at h
  rcases hf : PARENS.find? (fun p => p.1 == c) with _ | p0
  · rw [hf] at h
    rcases hg : PARENS.find? (fun p => p.2 == c) with _ | q0
    · rw [hg] at h; simp at h
    · rw [hg] at h
      simp only [Option.some.injEq, Prod.mk.injEq] at h
      have hm := List.mem_of_find?_eq_some hg
      have hp := List.find?_some hg
      simp only [beq_iff_eq] at hp
      have : (o, c) = q0 := by
        rcases q0 with ⟨a, b⟩
        simp only at hp h
        rw [← hp, ← h.1]
      rwa [this]
  · rw [hf] at h; simp at h

theorem mem_opens {o cl : Char} (h : (o, cl) ∈ PARENS) :
    other_paren o = some (cl, true) := by
  simp only [PARENS, List.mem_cons, List.not_mem_nil, or_false,
    Prod.mk.injEq] at h
  rcases h with ⟨rfl, rfl⟩ | ⟨rfl, rfl⟩ | ⟨rfl, rfl⟩ | ⟨rfl, rfl⟩ <;> decide

theorem mem_closes {o cl : Char} (h : (o, cl) ∈ PARENS) :
    other_paren cl = some (o, false) := by
  simp only [PARENS, List.mem_cons, List.not_mem_nil, or_false,
    Prod.mk.injEq] at h
  rcases h with ⟨rfl, rfl⟩ | ⟨rfl, rfl⟩ | ⟨rfl, rfl⟩ | ⟨rfl, rfl⟩ <;> decide

theorem opens_flip {o cl : Char} (h : other_paren o = some (cl, true)) :
    other_paren cl = some (o, false) :=
  mem_closes (other_paren_open_mem h)

theorem closes_flip {cl o : Char} (h : other_paren cl = some (o, false)) :
    other_paren o = some (cl, true) :=
  mem_opens (other_paren_close_mem h)

theorem utf8Size_of_bracket {c : Char} {p : Char × Bool}
    (h : other_paren c = some p) : c.utf8Size = 1 := by
  rcases p with ⟨x, b⟩
  cases b
  · have := other_paren_close_mem h
    simp only [PARENS, List.mem_cons, List.not_mem_nil, or_false,
      Prod.mk.injEq] at this
    rcases this with ⟨-, rfl⟩ | ⟨-, rfl⟩ | ⟨-, rfl⟩ | ⟨-, rfl⟩ <;> decide
  · have := other_paren_open_mem h
    simp only [PARENS, List.mem_cons, List.not_mem_nil, or_false,
      Prod.mk.injEq] at this
    rcases this with ⟨rfl, -⟩ | ⟨rfl, -⟩ | ⟨rfl, -⟩ | ⟨rfl, -⟩ <;> decide

theorem flipP_of_open {o cl : Char} (h : other_paren o = some (cl, true)) :
    flipP o = cl := by simp [flipP, h]

theorem flipP_of_close {cl o : Char} (h : other_paren cl = some (o, false)) :
    flipP cl = o := by simp [flipP, h]

theorem flipP_of_none {c : Char} (h : other_paren c = none) : flipP c = c := by
  simp [flipP, h]

theorem flipP_flipP (c : Char) : flipP (flipP c) = c := by
  rcases h : other_paren c with _ | ⟨cl, b⟩
  · rw [flipP_of_none h, flipP_of_none h]
  · cases b
    · rw [flipP_of_close h, flipP_of_open (closes_flip h)]
    · rw [flipP_of_open h, flipP_of_close (opens_flip h)]

theorem flipP_injective {a b : Char} (h : flipP a = flipP b) : a = b := by
  have := congrArg flipP h
  rwa [flipP_flipP, flipP_flipP] at this

theorem flipE_flipE (p : Nat × Char) : flipE (flipE p) = p := by
  simp [flipE, flipP_flipP]

/-! ### Balanced bracket sequences -/

theorem balL_append {a b : List (Nat × Char)} (ha : BalL a) (hb : BalL b) :
    BalL (a ++ b) := by
  induction ha with
  | nil => simpa using hb
  | skip hc _ ih => exact BalL.skip hc ih
  | pair ho hinner hrest ihi ihr =>
    simp only [List.cons_append, List.append_assoc]
    exact BalL.pair ho hinner ihr

theorem balL_reverse_flip {l : List (Nat × Char)} (h : BalL l) :
    BalL ((l.map flipE).reverse) := by
  induction h with
  | nil => exact BalL.nil
  | @skip c i l' hc _ ih =>
    have : (((i, c) :: l').map flipE).reverse
        = (l'.map flipE).reverse ++ [(i, c)] := by
      simp [flipE, flipP_of_none hc]
    rw [this]
    exact balL_append ih (BalL.skip hc BalL.nil)
  | @pair o cl i j inner rest ho hinner hrest ihi ihr =>
    have : ((((i, o) :: inner ++ (j, cl) :: rest)).map flipE).reverse
        = (rest.map flipE).reverse
          ++ ((j, o) :: (inner.map flipE).reverse ++ (i, cl) :: []) := by
      simp [flipE, flipP_of_open ho, flipP_of_close (opens_flip ho)]
    rw [this]
    exact balL_append ihr (BalL.pair (closes_flip (opens_flip ho)) ihi BalL.nil)

/-! Step equations for the two scans. -/

theorem fwdScan_skip {i : Nat} {x : Char} {rest : List (Nat × Char)}
    {stk : List Char} (hx : other_paren x = none) :
    fwdScan ((i, x) :: rest) stk = fwdScan rest stk := by
  simp [fwdScan, hx]

theorem fwdScan_opener {i : Nat} {x y : Char} {rest : List (Nat × Char)}
    {stk : List Char} (hx : other_paren x = some (y, true)) :
    fwdScan ((i, x) :: rest) stk = fwdScan rest (y :: stk) := by
  simp [fwdScan, hx]

theorem fwdScan_closer_nil {i : Nat} {x y : Char} {rest : List (Nat × Char)}
    (hx : other_paren x = some (y, false)) :
    fwdScan ((i, x) :: rest) [] = none := by
  simp [fwdScan, hx]

theorem fwdScan_closer {i : Nat} {x y top : Char} {rest : List (Nat × Char)}
    {stk : List Char} (hx : other_paren x = some (y, false)) :
    fwdScan ((i, x) :: rest) (top :: stk) =
      if top = x then (if stk = [] then some i else fwdScan rest stk)
      else none := by
  by_cases h : top = x <;> simp [fwdScan, hx, h]

theorem bwdScan_skip {i : Nat} {x : Char} {rest : List (Nat × Char)}
    {stk : List Char} (hx : other_paren x = none) :
    bwdScan ((i, x) :: rest) stk = bwdScan rest stk := by
  simp [bwdScan, hx]

theorem bwdScan_push {i : Nat} {x y : Char} {rest : List (Nat × Char)}
    {stk : List Char} (hx : other_paren x = some (y, false)) :
    bwdScan ((i, x) :: rest) stk = bwdScan rest (y :: stk) := by
  simp [bwdScan, hx]

theorem bwdScan_pop_nil {i : Nat} {x y : Char} {rest : List (Nat × Char)}
    (hx : other_paren x = some (y, true)) :
    bwdScan ((i, x) :: rest) [] = none := by
  simp [bwdScan, hx]

theorem bwdScan_pop {i : Nat} {x y top : Char} {rest : List (Nat × Char)}
    {stk : List Char} (hx : other_paren x = some (y, true)) :
    bwdScan ((i, x) :: rest) (top :: stk) =
      if top = x then (if stk = [] then some i else bwdScan rest stk)
      else none := by
  by_cases h : top = x <;> simp [bwdScan, hx, h]

/-- Scanning a balanced segment with a nonempty stack of expected closers
passes through it, leaving the stack untouched. -/
theorem fwdScan_balanced {l : List (Nat × Char)} (hb : BalL l) :
    ∀ rest stk, stk ≠ [] → fwdScan (l ++ rest) stk = fwdScan rest stk := by
  induction hb with
  | nil => intro rest stk _; rfl
  | skip hc _ ih =>
    intro rest stk hstk
    rw [List.cons_append]
    simp only [fwdScan, hc]
    exact ih rest stk hstk
  | @pair o cl i j inner rst ho hinner hrest ihi ihr =>
    intro rest stk hstk
    simp only [List.cons_append, List.append_assoc]
    simp only [fwdScan, ho]
    rw [ihi _ _ (by simp)]
    simp only [fwdScan, opens_flip ho]
    simp only [ne_eq, not_true_eq_false, reduceIte, if_neg hstk]
    exact ihr rest stk hstk

theorem closesAllL_nil_right {w : List (Nat × Char)}
    (h : ClosesAllL w []) : w = [] := by
  cases h; rfl

theorem closesAllL_cons_right {w : List (Nat × Char)} {e : Char}
    {stk : List Char} (h : ClosesAllL w (e :: stk)) :
    ∃ b j w', w = b ++ (j, e) :: w' ∧ BalL b ∧ ClosesAllL w' stk := by
  cases h with
  | cons hb hw => exact ⟨_, _, _, rfl, hb, hw⟩

theorem closesAllL_cons_skip {x : Char} {i : Nat} {v : List (Nat × Char)}
    {stk : List Char} (hx : other_paren x = none)
    (h : ClosesAllL v stk) (hstk : stk ≠ []) :
    ClosesAllL ((i, x) :: v) stk := by
  cases stk with
  | nil => exact absurd rfl hstk
  | cons e stk' =>
    obtain ⟨b, j, w, rfl, hb, hw⟩ := closesAllL_cons_right h
    rw [show (i, x) :: (b ++ (j, e) :: w) = ((i, x) :: b) ++ (j, e) :: w from rfl]
    exact ClosesAllL.cons (BalL.skip hx hb) hw

theorem closesAllL_cons_open {x y : Char} {i : Nat} {v : List (Nat × Char)}
    {stk : List Char} (hx : other_paren x = some (y, true))
    (h : ClosesAllL v (y :: stk)) (hstk : stk ≠ []) :
    ClosesAllL ((i, x) :: v) stk := by
  obtain ⟨b, j, w, rfl, hb, hw⟩ := closesAllL_cons_right h
  cases stk with
  | nil => exact absurd rfl hstk
  | cons e stk' =>
    obtain ⟨b2, j2, w2, rfl, hb2, hw2⟩ := closesAllL_cons_right hw
    have : (i, x) :: (b ++ (j, y) :: (b2 ++ (j2, e) :: w2))
        = ((i, x) :: b ++ (j, y) :: b2) ++ (j2, e) :: w2 := by
      simp [List.cons_append, List.append_assoc]
    rw [this]
    exact ClosesAllL.cons (BalL.pair hx hb hb2) hw2

/-- Extraction: a successful forward scan splits its input at the returned
offset, and the consumed part closes the initial stack. -/
theorem fwdScan_eq_some {l : List (Nat × Char)} :
    ∀ {stk : List Char} {j : Nat}, stk ≠ [] → fwdScan l stk = some j →
    ∃ l1 c l2, l = l1 ++ (j, c) :: l2 ∧ ClosesAllL (l1 ++ [(j, c)]) stk := by
  induction l with
  | nil => intro stk j _ h; simp [fwdScan] at h
  | cons p rest ih =>
    intro stk j hstk h
    rcases p with ⟨i, x⟩
    rcases hx : other_paren x with _ | ⟨y, op⟩
    · rw [fwdScan_skip hx] at h
      obtain ⟨l1, c, l2, rfl, hca⟩ := ih hstk h
      exact ⟨(i, x) :: l1, c, l2, rfl,
        by rw [show ((i, x) :: l1) ++ [(j, c)] = (i, x) :: (l1 ++ [(j, c)]) from rfl]
           exact closesAllL_cons_skip hx hca hstk⟩
    · cases op
      · -- x is a closer: pop from the stack
        cases stk with
        | nil => exact absurd rfl hstk
        | cons top stk' =>
          rw [fwdScan_closer hx] at h
          by_cases htop : top = x
          · rw [if_pos htop] at h
            subst htop
            by_cases hse : stk' = []
            · subst hse
              simp only [reduceIte, Option.some.injEq] at h
              subst h
              refine ⟨[], top, rest, rfl, ?_⟩
              rw [show ([] : List (Nat × Char)) ++ [(i, top)]
                  = ([] : List (Nat × Char)) ++ (i, top) :: [] from rfl]
              exact ClosesAllL.cons BalL.nil ClosesAllL.nil
            · rw [if_neg hse] at h
              obtain ⟨l1, c, l2, rfl, hca⟩ := ih hse h
              refine ⟨(i, top) :: l1, c, l2, rfl, ?_⟩
              rw [show ((i, top) :: l1) ++ [(j, c)]
                  = ([] : List (Nat × Char)) ++ (i, top) :: (l1 ++ [(j, c)]) from rfl]
              exact ClosesAllL.cons BalL.nil hca
          · rw [if_neg htop] at h
            exact absurd h (by simp)
      · -- x is an opener: push the expected closer
        rw [fwdScan_opener hx] at h
        obtain ⟨l1, c, l2, rfl, hca⟩ := ih (by simp) h
        exact ⟨(i, x) :: l1, c, l2, rfl,
          by rw [show ((i, x) :: l1) ++ [(j, c)] = (i, x) :: (l1 ++ [(j, c)]) from rfl]
             exact closesAllL_cons_open hx hca hstk⟩

/-- Extraction, specialized to the singleton initial stack used by
`find_matching_paren`: the part strictly between the start and the
returned offset is balanced, and the character at the returned offset is
the expected partner. -/
theorem fwdScan_single {l : List (Nat × Char)} {e : Char} {j : Nat}
    (h : fwdScan l [e] = some j) :
    ∃ l1 l2, l = l1 ++ (j, e) :: l2 ∧ BalL l1 := by
  obtain ⟨l1, c, l2, rfl, hca⟩ := fwdScan_eq_some (by simp) h
  obtain ⟨b, j2, w, heq, hb, hw⟩ := closesAllL_cons_right hca
  rw [closesAllL_nil_right hw] at heq
  obtain ⟨rfl, h2⟩ := List.append_inj' heq (by simp)
  have h3 : j = j2 ∧ c = e := by
    have := List.cons.injEq (j, c) [] (j2, e) [] ▸ h2
    simpa [Prod.ext_iff] using h2
  obtain ⟨h4, rfl⟩ := h3
  exact ⟨l1, l2, rfl, hb⟩

/-- The backward scan is the forward scan on the mirrored input. -/
theorem bwdScan_eq_fwdScan (m : List (Nat × Char)) :
    ∀ stk, bwdScan m stk = fwdScan (m.map flipE) (stk.map flipP) := by
  induction m with
  | nil => intro stk; rfl
  | cons p rest ih =>
    intro stk
    rcases p with ⟨i, c⟩
    rcases hc : other_paren c with _ | ⟨y, op⟩
    · rw [bwdScan_skip hc, List.map_cons,
        show flipE (i, c) = (i, c) from by simp [flipE, flipP_of_none hc],
        fwdScan_skip hc]
      exact ih stk
    · cases op
      · -- c closes: the backward scan pushes its opener, the mirrored
        -- forward scan sees the opener and pushes its closer
        have hy : other_paren y = some (c, true) := closes_flip hc
        rw [bwdScan_push hc, List.map_cons,
          show flipE (i, c) = (i, y) from by simp [flipE, flipP_of_close hc],
          fwdScan_opener hy, ih (y :: stk), List.map_cons, flipP_of_open hy]
      · -- c opens: the backward scan pops, the mirrored forward scan sees
        -- the closer and pops
        have hy : other_paren y = some (c, false) := opens_flip hc
        rw [List.map_cons, show flipE (i, c) = (i, y) from by
          simp [flipE, flipP_of_open hc]]
        cases stk with
        | nil => rw [bwdScan_pop_nil hc, List.map_nil, fwdScan_closer_nil hy]
        | cons top stk' =>
          rw [bwdScan_pop hc, List.map_cons, fwdScan_closer hy]
          by_cases htop : top = c
          · subst htop
            rw [if_pos rfl, if_pos (flipP_of_open hc)]
            by_cases hse : stk' = []
            · subst hse; simp
            · rw [if_neg hse, if_neg (by simpa using hse)]
              exact ih stk'
          · rw [if_neg htop, if_neg (by
              intro hh
              exact htop (flipP_injective (by rw [hh, flipP_of_open hc])))]

/-! ### Byte offsets of `char_indices` -/

theorem charIdx_ge {b : Nat} {s : List Char} :
    ∀ p ∈ charIdx b s, b ≤ p.1 := by
  induction s generalizing b with
  | nil => intro p hp; simp [charIdx] at hp
  | cons c cs ih =>
    intro p hp
    simp only [charIdx, List.mem_cons] at hp
    rcases hp with rfl | hp
    · exact le_refl b
    · have := ih p hp
      omega

theorem charIdx_pairwise (b : Nat) (s : List Char) :
    (charIdx b s).Pairwise (fun p q => p.1 < q.1) := by
  induction s generalizing b with
  | nil => exact List.Pairwise.nil
  | cons c cs ih =>
    rw [charIdx, List.pairwise_cons]
    refine ⟨fun q hq => ?_, ih _⟩
    have h1 := charIdx_ge q hq
    have h2 := Char.utf8Size_pos c
    simp only
    omega

theorem mem_charIdx_start {b : Nat} {s : List Char} {i : Nat} {c : Char} :
    (i, c) ∈ charIdx b s →
      i = b ∨ i ∈ (charIdx b s).map (fun p => p.1 + p.2.utf8Size) := by
  induction s generalizing b with
  | nil => intro h; simp [charIdx] at h
  | cons d cs ih =>
    intro h
    simp only [charIdx, List.mem_cons] at h
    rcases h with h | h
    · left
      exact congrArg Prod.fst h
    · rcases ih h with h2 | h2
      · right
        rw [charIdx, List.map_cons]
        exact h2 ▸ List.mem_cons_self _ _
      · right
        rw [charIdx, List.map_cons]
        exact List.mem_cons_of_mem _ h2

theorem isBoundary_iff {s : List Char} {i : Nat} :
    isBoundary s i = true ↔ i ∈ boundariesList s := by
  simp [isBoundary, List.contains, List.elem_iff]

theorem isBoundary_of_mem {s : List Char} {i : Nat} {c : Char}
    (h : (i, c) ∈ charIdx 0 s) : isBoundary s i = true := by
  rw [isBoundary_iff]
  rcases mem_charIdx_start h with rfl | h2
  · exact List.mem_cons_self _ _
  · exact List.mem_cons_of_mem _ h2

theorem isBoundary_end_of_mem {s : List Char} {i : Nat} {c : Char}
    (h : (i, c) ∈ charIdx 0 s) : isBoundary s (i + c.utf8Size) = true := by
  rw [isBoundary_iff]
  exact List.mem_cons_of_mem _ (List.mem_map.mpr ⟨(i, c), h, rfl⟩)

theorem lookup_of_decomp {A B : List (Nat × Char)} {k : Nat} {c : Char}
    (hp : (A ++ (k, c) :: B).Pairwise (fun p q => p.1 < q.1)) :
    List.lookup k (A ++ (k, c) :: B) = some c := by
  induction A with
  | nil => simp [List.lookup]
  | cons a A ih =>
    rcases a with ⟨ka, ca⟩
    rw [List.cons_append] at hp
    have hk : ka < k := by
      rw [List.pairwise_cons] at hp
      exact hp.1 (k, c) (by simp)
    rw [List.cons_append, List.lookup_cons,
      show (k == ka) = false from by simp; omega]
    exact ih (List.pairwise_cons.mp hp).2

theorem mem_of_lookup_charIdx {l : List (Nat × Char)} {k : Nat} {c : Char} :
    List.lookup k l = some c → (k, c) ∈ l := by
  induction l with
  | nil => intro h; simp [List.lookup] at h
  | cons a rest ih =>
    rcases a with ⟨ka, ca⟩
    intro h
    rw [List.lookup_cons] at h
    by_cases hk : k = ka
    · subst hk
      rw [show (k == k) = true from by simp] at h
      simp only [Option.some.injEq] at h
      subst h
      exact List.mem_cons_self _ _
    · rw [show (k == ka) = false from by simpa using hk] at h
      exact List.mem_cons_of_mem _ (ih h)

theorem filter_decomp_right {l A B : List (Nat × Char)} {k : Nat} {c : Char}
    (hp : l.Pairwise (fun p q => p.1 < q.1)) (hd : l = A ++ (k, c) :: B) :
    l.filter (fun p => k + 1 ≤ p.1) = B := by
  subst hd
  rw [List.pairwise_append] at hp
  rw [List.filter_append, List.filter_cons]
  have hA : A.filter (fun p => decide (k + 1 ≤ p.1)) = [] := by
    rw [List.filter_eq_nil_iff]
    intro a ha
    have := hp.2.2 a ha (k, c) (by simp)
    simp only at this
    simp only [decide_eq_true_eq]
    omega
  have hB : B.filter (fun p => decide (k + 1 ≤ p.1)) = B := by
    rw [List.filter_eq_self]
    intro b hb
    have := (List.pairwise_cons.mp hp.2.1).1 b hb
    simp only at this
    simp only [decide_eq_true_eq]
    omega
  rw [hA, hB]
  simp

theorem map_flipE_flipE (X : List (Nat × Char)) :
    (X.map flipE).map flipE = X := by
  induction X with
  | nil => rfl
  | cons p rest ih => simp [flipE_flipE, ih]

theorem filter_decomp_left {l A B : List (Nat × Char)} {k : Nat} {c : Char}
    (hp : l.Pairwise (fun p q => p.1 < q.1)) (hd : l = A ++ (k, c) :: B) :
    l.filter (fun p => p.1 < k) = A := by
  subst hd
  rw [List.pairwise_append] at hp
  rw [List.filter_append, List.filter_cons]
  have hA : A.filter (fun p => decide (p.1 < k)) = A := by
    rw [List.filter_eq_self]
    intro a ha
    have := hp.2.2 a ha (k, c) (by simp)
    simp only at this
    simp only [decide_eq_true_eq]
    omega
  have hB : B.filter (fun p => decide (p.1 < k)) = [] := by
    rw [List.filter_eq_nil_iff]
    intro b hb
    have := (List.pairwise_cons.mp hp.2.1).1 b hb
    simp only at this
    simp only [decide_eq_true_eq]
    omega
  rw [hA, hB]
  simp

/-- One successful opening-side match implies the symmetric closing-side
match from the partner offset. -/
theorem involution_fwd {s : List Char} {i j : Nat} {paren e : Char}
    (hlk : List.lookup i (charIdx 0 s) = some paren)
    (hop : other_paren paren = some (e, true))
    (hr : fwdScan ((charIdx 0 s).filter (fun p => i + 1 ≤ p.1)) [e] = some j) :
    find_matching_paren s j = some (some i) := by
  have hps := charIdx_pairwise 0 s
  have hmem := mem_of_lookup_charIdx hlk
  obtain ⟨A, B, hAB⟩ := List.append_of_mem hmem
  rw [filter_decomp_right hps hAB] at hr
  obtain ⟨l1, l2, hB, hbal⟩ := fwdScan_single hr
  have hps2 : charIdx 0 s = (A ++ (i, paren) :: l1) ++ (j, e) :: l2 := by
    rw [hAB, hB]; simp [List.append_assoc]
  have hpw2 : ((A ++ (i, paren) :: l1) ++ (j, e) :: l2).Pairwise
      (fun p q => p.1 < q.1) := hps2 ▸ hps
  have hmem2 : (j, e) ∈ charIdx 0 s := by rw [hps2]; simp
  have hecl : other_paren e = some (paren, false) := opens_flip hop
  have hsz : e.utf8Size = 1 := utf8Size_of_bracket hecl
  have hbj : isBoundary s j = true := isBoundary_of_mem hmem2
  have hbj1 : isBoundary s (j + 1) = true := by
    have := isBoundary_end_of_mem hmem2
    rwa [hsz] at this
  have hlkj : List.lookup j (charIdx 0 s) = some e := by
    rw [hps2]; exact lookup_of_decomp hpw2
  have hfA : (charIdx 0 s).filter (fun p => p.1 < j) = A ++ (i, paren) :: l1 :=
    filter_decomp_left hps hps2
  have hfe : flipP paren = e := flipP_of_open hop
  have hscan : bwdScan ((A ++ (i, paren) :: l1).reverse) [paren] = some i := by
    rw [show (A ++ (i, paren) :: l1).reverse
        = l1.reverse ++ (i, paren) :: A.reverse from by simp]
    rw [bwdScan_eq_fwdScan, List.map_append, List.map_cons]
    rw [show List.map flipE l1.reverse = (List.map flipE l1).reverse from
      List.map_reverse _ _]
    rw [show flipE (i, paren) = (i, e) from by simp [flipE, hfe]]
    rw [show List.map flipP [paren] = [e] from by simp [hfe]]
    rw [fwdScan_balanced (balL_reverse_flip hbal) _ [e] (by simp)]
    rw [fwdScan_closer hecl]
    simp
  unfold find_matching_paren
  rw [if_neg (not_not_intro hbj), if_neg (not_not_intro hbj1)]
  simp only [hlkj, hecl, Bool.false_eq_true, if_false, hfA, hscan]

/-- One successful closing-side match implies the symmetric opening-side
match from the partner offset. -/
theorem involution_bwd {s : List Char} {i j : Nat} {paren e : Char}
    (hlk : List.lookup i (charIdx 0 s) = some paren)
    (hop : other_paren paren = some (e, false))
    (hr : bwdScan (((charIdx 0 s).filter (fun p => p.1 < i)).reverse) [e] = some j) :
    find_matching_paren s j = some (some i) := by
  have hps := charIdx_pairwise 0 s
  have hmem := mem_of_lookup_charIdx hlk
  obtain ⟨A, B, hAB⟩ := List.append_of_mem hmem
  rw [filter_decomp_left hps hAB] at hr
  have heo : other_paren e = some (paren, true) := closes_flip hop
  have hfe : flipP e = paren := flipP_of_open heo
  have hfp : flipP paren = e := flipP_of_close hop
  rw [bwdScan_eq_fwdScan] at hr
  rw [show List.map flipP [e] = [paren] from by simp [hfe]] at hr
  obtain ⟨l1, l2, hA, hbal⟩ := fwdScan_single hr
  have hA2 : A = (l2.map flipE).reverse ++ (j, e) :: (l1.map flipE).reverse := by
    have h1 := congrArg (List.map flipE) hA
    rw [map_flipE_flipE] at h1
    have h2 := congrArg List.reverse h1
    rw [List.reverse_reverse] at h2
    rw [h2, List.map_append, List.map_cons]
    rw [show flipE (j, paren) = (j, e) from by simp [flipE, hfp]]
    simp
  have hps2 : charIdx 0 s
      = (l2.map flipE).reverse ++ (j, e) :: ((l1.map flipE).reverse ++ (i, paren) :: B) := by
    rw [hAB, hA2]; simp [List.append_assoc]
  have hpw2 := hps2 ▸ hps
  have hmem2 : (j, e) ∈ charIdx 0 s := by rw [hps2]; simp
  have hsz : e.utf8Size = 1 := utf8Size_of_bracket heo
  have hbj : isBoundary s j = true := isBoundary_of_mem hmem2
  have hbj1 : isBoundary s (j + 1) = true := by
    have := isBoundary_end_of_mem hmem2
    rwa [hsz] at this
  have hlkj : List.lookup j (charIdx 0 s) = some e := by
    rw [hps2]; exact lookup_of_decomp hpw2
  have hfB : (charIdx 0 s).filter (fun p => j + 1 ≤ p.1)
      = (l1.map flipE).reverse ++ (i, paren) :: B :=
    filter_decomp_right hps hps2
  have hscan : fwdScan ((l1.map flipE).reverse ++ (i, paren) :: B) [paren] = some i := by
    rw [fwdScan_balanced (balL_reverse_flip hbal) _ [paren] (by simp)]
    rw [fwdScan_closer hop]
    simp
  unfold find_matching_paren
  rw [if_neg (not_not_intro hbj), if_neg (not_not_intro hbj1)]
  simp only [hlkj, heo, if_true, hfB, hscan]

/-- C6: Bracket matching is an involution: for every string and every
index whose `find_matching_paren` call succeeds with index `j` (which in
particular requires the index to lie on a bracket character with both it
and the next index on character boundaries), the call at `j` returns the
original index. -/
theorem C6_find_matching_paren_involution {s : List Char} {i j : Nat}
    (h : find_matching_paren s i = some (some j)) :
    find_matching_paren s j = some (some i) := by
  unfold find_matching_paren at h
  by_cases hb1 : isBoundary s i = true
  case neg => rw [if_pos (by simpa using hb1)] at h; exact absurd h (by simp)
  rw [if_neg (not_not_intro hb1)] at h
  by_cases hb2 : isBoundary s (i + 1) = true
  case neg => rw [if_pos (by simpa using hb2)] at h; exact absurd h (by simp)
  rw [if_neg (not_not_intro hb2)] at h
  rcases hlk : List.lookup i (charIdx 0 s) with _ | paren
  · simp only [hlk] at h
    exact absurd h (by simp)
  · simp only [hlk] at h
    rcases hop : other_paren paren with _ | ⟨e, op⟩
    · simp only [hop] at h
      exact absurd h (by simp)
    · simp only [hop] at h
      cases op
      · simp only [Bool.false_eq_true, if_false, Option.some.injEq] at h
        exact involution_bwd hlk hop h
      · simp only [if_true, Option.some.injEq] at h
        exact involution_fwd hlk hop h

/-- Witness for C6 at a concrete input: in `"<a(b)c>"` the bracket at
byte 2 matches byte 4 and conversely. -/
theorem C6_witness :
    find_matching_paren ['<', 'a', '(', 'b', ')', 'c', '>'] 2 = some (some 4) ∧
    find_matching_paren ['<', 'a', '(', 'b', ')', 'c', '>'] 4 = some (some 2) :=
  ⟨by decide, C6_find_matching_paren_involution (by decide)⟩

/-! ## apply.rs: patch aggregation and application -/

/-! ### C3 and C4: aggregation properties -/

theorem sortPatches_sorted (ps : List Patch) :
    (sortPatches ps).Pairwise (fun a b => a.locationStart ≤ b.locationStart) :=
  List.sorted_insertionSort _ ps

theorem sortPatches_perm (ps : List Patch) : (sortPatches ps).Perm ps :=
  List.perm_insertionSort _ ps

theorem checkNonOverlapping_of_pairwise {l : List Patch}
    (hwf : ∀ p ∈ l, p.locationStart ≤ p.locationEnd)
    (hcompat : l.Pairwise (fun p q =>
      p.locationEnd ≤ q.locationStart ∨ q.locationEnd ≤ p.locationStart))
    (hlt : l.Pairwise (fun p q => p.locationStart < q.locationStart)) :
    checkNonOverlapping l = true := by
  induction l with
  | nil => rfl
  | cons a l ih =>
    cases l with
    | nil => rfl
    | cons b rest =>
      rw [checkNonOverlapping, Bool.and_eq_true]
      have hab : a.locationEnd ≤ b.locationStart := by
        have h1 := (List.pairwise_cons.mp hcompat).1 b (by simp)
        have h2 := (List.pairwise_cons.mp hlt).1 b (by simp)
        have h3 := hwf b (by simp)
        rcases h1 with h | h
        · exact h
        · omega
      exact ⟨decide_eq_true hab,
        ih (fun p hp => hwf p (List.mem_cons_of_mem _ hp))
          (List.pairwise_cons.mp hcompat).2 (List.pairwise_cons.mp hlt).2⟩

/-- C3, amended: for patches that are pairwise non-overlapping AND have
pairwise distinct start offsets (with well-formed ranges), grouping
succeeds and grouping plus application give the same result for any input
order of the patches. -/
theorem C3_nonoverlapping_distinct_order_independent {ps qs : List Patch}
    (hperm : ps.Perm qs)
    (hwf : ∀ p ∈ ps, p.locationStart ≤ p.locationEnd)
    (hcompat : ps.Pairwise (fun p q =>
      p.locationEnd ≤ q.locationStart ∨ q.locationEnd ≤ p.locationStart))
    (hdist : ps.Pairwise (fun p q => p.locationStart ≠ q.locationStart)) :
    (groupFile ps).isSome = true ∧ groupFile ps = groupFile qs ∧
    ∀ buffer, (groupFile ps).bind (writeFileChanges buffer)
      = (groupFile qs).bind (writeFileChanges buffer) := by
  haveI : IsAntisymm Patch (fun a b => a.locationStart < b.locationStart) :=
    ⟨fun _ _ h1 h2 => absurd h2 (by omega)⟩
  have hsymn : Symmetric (fun p q : Patch =>
      p.locationStart ≠ q.locationStart) := fun _ _ h => Ne.symm h
  have hsymc : Symmetric (fun p q : Patch =>
      p.locationEnd ≤ q.locationStart ∨ q.locationEnd ≤ p.locationStart) :=
    fun _ _ h => Or.symm h
  have strict : ∀ rs : List Patch, rs.Perm ps →
      (sortPatches rs).Pairwise (fun a b => a.locationStart < b.locationStart) := by
    intro rs hrs
    have hle := sortPatches_sorted rs
    have hne : (sortPatches rs).Pairwise (fun p q =>
        p.locationStart ≠ q.locationStart) :=
      (((sortPatches_perm rs).trans hrs).pairwise_iff (fun hh => hsymn hh)).mpr hdist
    exact (hle.and hne).imp (fun h => lt_of_le_of_ne h.1 h.2)
  have hlt_ps := strict ps (List.Perm.refl ps)
  have hlt_qs := strict qs hperm.symm
  have hsorteq : sortPatches ps = sortPatches qs :=
    List.eq_of_perm_of_sorted
      ((sortPatches_perm ps).trans (hperm.trans (sortPatches_perm qs).symm))
      hlt_ps hlt_qs
  have hcheck : checkNonOverlapping (sortPatches ps) = true :=
    checkNonOverlapping_of_pairwise
      (fun p hp => hwf p ((sortPatches_perm ps).mem_iff.mp hp))
      (((sortPatches_perm ps).pairwise_iff (fun hh => hsymc hh)).mpr hcompat)
      hlt_ps
  have hg1 : groupFile ps = some (sortPatches ps) := by
    unfold groupFile
    rw [if_pos hcheck]
  have hg2 : groupFile qs = some (sortPatches ps) := by
    unfold groupFile
    rw [← hsorteq, if_pos hcheck]
  refine ⟨by rw [hg1]; rfl, by rw [hg1, hg2], fun buffer => by rw [hg1, hg2]⟩

/-- C3, counterexample to the claim as stated: two zero-width patches at
the same offset are pairwise non-overlapping in the claim's sense (each
range ends at or before the other starts), both orders group
successfully, yet the two input orders produce different final contents. -/
theorem C3_counterexample :
    (Patch.mk 1 1 [88]).locationEnd ≤ (Patch.mk 1 1 [89]).locationStart ∧
    (Patch.mk 1 1 [89]).locationEnd ≤ (Patch.mk 1 1 [88]).locationStart ∧
    (groupFile [Patch.mk 1 1 [88], Patch.mk 1 1 [89]]).isSome = true ∧
    (groupFile [Patch.mk 1 1 [89], Patch.mk 1 1 [88]]).isSome = true ∧
    (groupFile [Patch.mk 1 1 [88], Patch.mk 1 1 [89]]).bind
        (writeFileChanges [97, 98, 99])
      ≠ (groupFile [Patch.mk 1 1 [89], Patch.mk 1 1 [88]]).bind
        (writeFileChanges [97, 98, 99]) := by
  decide

theorem checkNonOverlapping_append_false {ps1 ps2 : List Patch} {a b : Patch}
    (hov : b.locationStart < a.locationEnd) :
    checkNonOverlapping (ps1 ++ a :: b :: ps2) = false := by
  induction ps1 with
  | nil =>
    rw [List.nil_append, checkNonOverlapping,
      show decide (a.locationEnd ≤ b.locationStart) = false from by
        simp; omega,
      Bool.false_and]
  | cons x rest ih =>
    rw [List.cons_append]
    rcases hre : rest ++ a :: b :: ps2 with _ | ⟨y, ys⟩
    · exact absurd hre (by simp)
    · rw [checkNonOverlapping, ← hre, ih, Bool.and_false]

theorem mem_filesOf_of_patches {changes : List Change} {f : String}
    (h : patchesFor f changes ≠ []) : f ∈ filesOf changes := by
  unfold patchesFor at h
  rcases hf : changes.filter (fun c => c.file = f) with _ | ⟨c, cs⟩
  · rw [hf] at h
    simp at h
  · have hc : c ∈ changes.filter (fun c => c.file = f) := by
      rw [hf]; simp
    rw [List.mem_filter] at hc
    have : c.file = f := by simpa using hc.2
    unfold filesOf
    rw [List.mem_dedup, ← this]
    exact List.mem_map_of_mem _ hc.1

theorem collectSets_none {files : List String} {changes : List Change}
    {f : String} (hf : f ∈ files)
    (hg : groupFile (patchesFor f changes) = none) :
    collectSets files changes = none := by
  induction files with
  | nil => simp at hf
  | cons g rest ih =>
    rw [collectSets]
    rcases List.mem_cons.mp hf with rfl | hmem
    · rw [hg, Option.none_bind]
    · rcases hgg : groupFile (patchesFor g changes) with _ | ps
      · rw [Option.none_bind]
      · rw [Option.some_bind, ih hmem, Option.none_bind]

/-- C4: whenever the ascending sort of the patches on some file contains
a consecutive pair with `previous.end > next.start`, the grouping assert
fires; the whole run aborts and nothing is written to any file, in either
write or dry-run mode. -/
theorem C4_overlap_rejects_run {changes : List Change} {f : String}
    {ps1 ps2 : List Patch} {a b : Patch}
    (hs : sortPatches (patchesFor f changes) = ps1 ++ a :: b :: ps2)
    (hov : b.locationStart < a.locationEnd)
    (fs : String → List Nat) (write : Bool) :
    runWrites fs write changes = none := by
  have hg : groupFile (patchesFor f changes) = none := by
    unfold groupFile
    rw [if_neg]
    rw [hs, checkNonOverlapping_append_false hov]
    simp
  have hne : patchesFor f changes ≠ [] := by
    intro h0
    rw [h0] at hs
    exact absurd hs (by simp [sortPatches, List.insertionSort])
  unfold runWrites groupAll
  rw [collectSets_none (mem_filesOf_of_patches hne) hg]

/-- Witness for C4: a concrete two-change overlapping run aborts with
nothing written. -/
theorem C4_witness :
    runWrites (fun _ => [10, 11, 12, 13]) true
      [Change.mk "x" (Patch.mk 0 2 [65]), Change.mk "x" (Patch.mk 1 3 [66])]
      = none :=
  @C4_overlap_rejects_run
    [Change.mk "x" (Patch.mk 0 2 [65]), Change.mk "x" (Patch.mk 1 3 [66])]
    "x" [] [] (Patch.mk 0 2 [65]) (Patch.mk 1 3 [66])
    (by decide) (by decide) _ _

/-- Witness for the amended C3 at a concrete input: two disjoint patches
with distinct starts give the same result in either order. -/
theorem C3_witness :
    (groupFile [Patch.mk 0 1 [65], Patch.mk 2 3 [66]]).isSome = true ∧
    groupFile [Patch.mk 0 1 [65], Patch.mk 2 3 [66]]
      = groupFile [Patch.mk 2 3 [66], Patch.mk 0 1 [65]] ∧
    ∀ buffer,
      (groupFile [Patch.mk 0 1 [65], Patch.mk 2 3 [66]]).bind
        (writeFileChanges buffer)
      = (groupFile [Patch.mk 2 3 [66], Patch.mk 0 1 [65]]).bind
        (writeFileChanges buffer) :=
  C3_nonoverlapping_distinct_order_independent
    (by decide) (by decide) (by decide) (by decide)

/-! ## operation.rs enums and text.rs template engine -/

theorem length_dropWhile_le (p : Char → Bool) (l : List Char) :
    (l.dropWhile p).length ≤ l.length := by
  induction l with
  | nil => simp
  | cons c cs ih =>
    rw [List.dropWhile_cons]
    split
    · simp only [List.length_cons]
      omega
    · simp

/-! ### C10: template substitution -/

theorem collectRepl_none {σ : Type}
    {resolver : List Char → σ → Except ExecError (Option (List Char) × σ)}
    (hres : ∀ n st, resolver n st = .ok (none, st)) :
    ∀ (ms : List (Nat × Nat × List Char)) (st : σ),
      collectRepl resolver ms st = .ok ([], st) := by
  intro ms
  induction ms with
  | nil => intro st; rfl
  | cons m ms ih =>
    intro st
    rcases m with ⟨s, e, ident⟩
    rw [collectRepl, hres]
    exact ih st

/-- C10: template substitution collects all token matches left to right,
substitutes those the resolver resolves (applying them back to front),
and leaves unresolved tokens as written: with a resolver that resolves
nothing the template is returned unchanged (for every input), and the
three concrete examples of the specification evaluate as stated. -/
theorem C10_template_substitution :
    (∀ (tmpl : List Char) (st : Unit),
      template tmpl (pureResolver (fun _ => none)) st = some (.ok (tmpl, st))) ∧
    template "$a123".toList
        (pureResolver (fun n => if n = "a123".toList then some "124".toList else none)) ()
      = some (.ok ("124".toList, ())) ∧
    template "${b2}".toList (pureResolver (fun _ => none)) ()
      = some (.ok ("${b2}".toList, ())) ∧
    template "$${a2}$$".toList
        (pureResolver (fun n => if n = "a2".toList then some "3".toList else none)) ()
      = some (.ok ("$3$$".toList, ())) := by
  refine ⟨?_, by decide, by decide, by decide⟩
  intro tmpl st
  unfold template
  rw [@collectRepl_none Unit (pureResolver (fun _ => none)) (fun _ _ => rfl)
    (scanTemplates 0 tmpl) st]
  rfl

/-! ## operation.rs: `TextOperation::apply` -/

theorem walkBack_le (haystack : List Char) (k : Nat) :
    walkBack haystack (k + 1) ≤ k := by
  induction k with
  | zero => simp [walkBack]
  | succ n ih =>
    rw [walkBack]
    split
    · exact le_refl _
    · exact le_trans ih (by omega)

/-! ### Boundary and lookup facts for C8 and C9 -/

theorem byteLen_cons (c : Char) (cs : List Char) :
    byteLen (c :: cs) = c.utf8Size + byteLen cs := by
  simp [byteLen]

theorem charIdx_end_le {s : List Char} :
    ∀ {b i : Nat} {c : Char}, (i, c) ∈ charIdx b s →
      i + c.utf8Size ≤ b + byteLen s := by
  induction s with
  | nil => intro b i c h; simp [charIdx] at h
  | cons d ds ih =>
    intro b i c h
    rw [byteLen_cons]
    simp only [charIdx, List.mem_cons] at h
    rcases h with h | h
    · obtain ⟨rfl, rfl⟩ : i = b ∧ c = d := by simpa [Prod.ext_iff] using h
      omega
    · have := ih h
      omega

theorem boundary_le {s : List Char} {k : Nat}
    (h : isBoundary s k = true) : k ≤ byteLen s := by
  rw [isBoundary_iff] at h
  rcases List.mem_cons.mp h with rfl | h2
  · exact Nat.zero_le _
  · obtain ⟨⟨i, c⟩, hm, rfl⟩ := List.mem_map.mp h2
    have := charIdx_end_le hm
    show i + c.utf8Size ≤ byteLen s
    omega

theorem mem_charIdx_exists {s : List Char} :
    ∀ {b k : Nat},
      (k = b ∨ k ∈ (charIdx b s).map (fun p => p.1 + p.2.utf8Size)) →
      k < b + byteLen s → ∃ c, (k, c) ∈ charIdx b s := by
  induction s with
  | nil =>
    intro b k hk hlt
    rcases hk with rfl | hk
    · simp [byteLen] at hlt
    · simp [charIdx] at hk
  | cons c cs ih =>
    intro b k hk hlt
    rcases hk with rfl | hk
    · exact ⟨c, by simp [charIdx]⟩
    · rw [charIdx, List.map_cons, List.mem_cons] at hk
      have hnext : k = b + c.utf8Size ∨
          k ∈ (charIdx (b + c.utf8Size) cs).map (fun p => p.1 + p.2.utf8Size) := by
        rcases hk with hk | hk
        · left; simpa using hk
        · right; exact hk
      have hlt2 : k < b + c.utf8Size + byteLen cs := by
        rw [byteLen_cons] at hlt; omega
      obtain ⟨d, hd⟩ := ih hnext hlt2
      exact ⟨d, by rw [charIdx]; exact List.mem_cons_of_mem _ hd⟩

theorem lookup_of_mem_charIdx {s : List Char} {k : Nat} {c : Char}
    (h : (k, c) ∈ charIdx 0 s) : List.lookup k (charIdx 0 s) = some c := by
  obtain ⟨A, B, hAB⟩ := List.append_of_mem h
  rw [hAB]
  exact lookup_of_decomp (hAB ▸ charIdx_pairwise 0 s)

theorem lookup_of_boundary {s : List Char} {k : Nat}
    (hb : isBoundary s k = true) (hlt : k < byteLen s) :
    ∃ c, List.lookup k (charIdx 0 s) = some c := by
  rw [isBoundary_iff] at hb
  have hk : k = 0 ∨ k ∈ (charIdx 0 s).map (fun p => p.1 + p.2.utf8Size) := by
    rcases List.mem_cons.mp hb with rfl | h2
    · exact Or.inl rfl
    · exact Or.inr h2
  obtain ⟨c, hc⟩ := mem_charIdx_exists hk (by omega)
  exact ⟨c, lookup_of_mem_charIdx hc⟩

/-- With both boundary checks satisfied, `find_matching_paren` cannot
panic. -/
theorem find_matching_paren_ne_none {s : List Char} {k : Nat}
    (hb1 : isBoundary s k = true) (hb2 : isBoundary s (k + 1) = true) :
    find_matching_paren s k ≠ none := by
  have hlt : k < byteLen s := by
    have := boundary_le hb2
    omega
  obtain ⟨c, hc⟩ := lookup_of_boundary hb1 hlt
  unfold find_matching_paren
  rw [if_neg (not_not_intro hb1), if_neg (not_not_intro hb2)]
  rw [hc]
  rcases hop : other_paren c with _ | ⟨e, op⟩
  · simp [hop]
  · cases op <;> simp [hop]

/-! ### C7: replace and substitute selection lengths -/

theorem replaceRange_eq_some {s : List Char} {a b : Nat} {ins out : List Char}
    (h : replaceRange s a b ins = some out) :
    ∃ pre mid post, byteSlice s a b = some (pre, mid, post) ∧
      out = pre ++ ins ++ post := by
  unfold replaceRange at h
  rcases hbs : byteSlice s a b with _ | ⟨pre, mid, post⟩ <;> rw [hbs] at h
  · simp at h
  · simp at h
    exact ⟨pre, mid, post, rfl, by rw [← h, List.append_assoc]⟩

/-- C7: whenever `replace`, `substitute` or `substitute-all` succeeds,
the returned selection starts at the old selection start and its length
is the byte length of the newly inserted text: the buffer becomes
prefix ++ inserted ++ suffix with the selection spanning exactly the
inserted bytes. -/
theorem C7_insert_ops_selection_length :
    (∀ (engine : RegexEngine) (st : InterpState) (ospan : Nat × Nat)
        (a b : Nat) (args : List (List Char)) (sp : Nat × Nat) (st2 : InterpState),
      TextOperation.apply .Replace engine st ospan (a, b) args
          = some (.ok (sp, st2)) →
      ∃ pre mid post ins, byteSlice st.haystack a b = some (pre, mid, post) ∧
        st2.haystack = pre ++ ins ++ post ∧ sp = (a, a + byteLen ins)) ∧
    (∀ (engine : RegexEngine) (st : InterpState) (ospan : Nat × Nat)
        (a b : Nat) (args : List (List Char)) (sp : Nat × Nat) (st2 : InterpState),
      TextOperation.apply .Substitute engine st ospan (a, b) args
          = some (.ok (sp, st2)) →
      ∃ pre mid post ins, byteSlice st.haystack a b = some (pre, mid, post) ∧
        st2.haystack = pre ++ ins ++ post ∧ sp = (a, a + byteLen ins)) ∧
    (∀ (engine : RegexEngine) (st : InterpState) (ospan : Nat × Nat)
        (a b : Nat) (args : List (List Char)) (sp : Nat × Nat) (st2 : InterpState),
      TextOperation.apply .SubstituteAll engine st ospan (a, b) args
          = some (.ok (sp, st2)) →
      ∃ pre mid post ins, byteSlice st.haystack a b = some (pre, mid, post) ∧
        st2.haystack = pre ++ ins ++ post ∧ sp = (a, a + byteLen ins)) := by
  refine ⟨?_, ?_, ?_⟩
  · intro engine st ospan a b args sp st2 h
    simp only [TextOperation.apply] at h
    rcases h0 : args.get? 0 with _ | arg <;> simp only [h0] at h
    · exact absurd h (by simp)
    rcases ht : template arg (templateResolver .Replace) st.stack with _ | er
    · simp only [ht] at h
      exact absurd h (by simp)
    rcases er with e | ⟨value, stack2⟩ <;> simp only [ht] at h
    · exact absurd h (by simp)
    rcases hr : replaceRange st.haystack a b value with _ | h2 <;>
      simp only [hr] at h
    · exact absurd h (by simp)
    simp only [Option.some.injEq, Except.ok.injEq] at h
    obtain ⟨rfl, rfl⟩ := h
    obtain ⟨pre, mid, post, hbs, hout⟩ := replaceRange_eq_some hr
    exact ⟨pre, mid, post, value, hbs, hout, rfl⟩
  · intro engine st ospan a b args sp st2 h
    simp only [TextOperation.apply] at h
    rcases h0 : args.get? 0 with _ | pat
    · rcases h1 : args.get? 1 with _ | arg <;> simp only [h0, h1] at h <;>
        exact absurd h (by simp)
    rcases h1 : args.get? 1 with _ | arg <;> simp only [h0, h1] at h
    · exact absurd h (by simp)
    by_cases hc : engine.compiles pat = true
    swap
    · rw [if_pos (by simpa using hc)] at h
      exact absurd h (by simp)
    rw [if_neg (not_not_intro hc)] at h
    rcases hbs0 : byteSlice st.haystack a b with _ | ⟨pre0, mid0, post0⟩ <;>
      simp only [hbs0] at h
    · exact absurd h (by simp)
    rcases ht : template arg (templateResolver .Substitute) st.stack with _ | er
    · simp only [ht] at h
      exact absurd h (by simp)
    rcases er with e | ⟨value, stack2⟩ <;> simp only [ht] at h
    · exact absurd h (by simp)
    rcases hr : replaceRange st.haystack a b (engine.replaceFirst pat mid0 value)
        with _ | h2 <;> simp only [hr] at h
    · exact absurd h (by simp)
    simp only [Option.some.injEq, Except.ok.injEq] at h
    obtain ⟨rfl, rfl⟩ := h
    obtain ⟨pre, mid, post, hbs, hout⟩ := replaceRange_eq_some hr
    exact ⟨pre, mid, post, engine.replaceFirst pat mid0 value,
      hbs0.symm.trans hbs, hout, rfl⟩
  · intro engine st ospan a b args sp st2 h
    simp only [TextOperation.apply] at h
    rcases h0 : args.get? 0 with _ | pat
    · rcases h1 : args.get? 1 with _ | arg <;> simp only [h0, h1] at h <;>
        exact absurd h (by simp)
    rcases h1 : args.get? 1 with _ | arg <;> simp only [h0, h1] at h
    · exact absurd h (by simp)
    by_cases hc : engine.compiles pat = true
    swap
    · rw [if_pos (by simpa using hc)] at h
      exact absurd h (by simp)
    rw [if_neg (not_not_intro hc)] at h
    rcases hbs0 : byteSlice st.haystack a b with _ | ⟨pre0, mid0, post0⟩ <;>
      simp only [hbs0] at h
    · exact absurd h (by simp)
    rcases ht : template arg (templateResolver .SubstituteAll) st.stack with _ | er
    · simp only [ht] at h
      exact absurd h (by simp)
    rcases er with e | ⟨value, stack2⟩ <;> simp only [ht] at h
    · exact absurd h (by simp)
    rcases hr : replaceRange st.haystack a b (engine.replaceAll pat mid0 value)
        with _ | h2 <;> simp only [hr] at h
    · exact absurd h (by simp)
    simp only [Option.some.injEq, Except.ok.injEq] at h
    obtain ⟨rfl, rfl⟩ := h
    obtain ⟨pre, mid, post, hbs, hout⟩ := replaceRange_eq_some hr
    exact ⟨pre, mid, post, engine.replaceAll pat mid0 value,
      hbs0.symm.trans hbs, hout, rfl⟩

/-- Witness for C7 at a concrete input: replacing selection 4..8 of
`"let mut x"` with `"y"` yields the selection spanning the inserted
byte. -/
theorem C7_witness :
    ∃ pre mid post ins,
      byteSlice ("let mut x".toList) 4 8 = some (pre, mid, post) ∧
      ("let yx".toList) = pre ++ ins ++ post ∧
      ((4 : Nat), (5 : Nat)) = (4, 4 + byteLen ins) :=
  C7_insert_ops_selection_length.1 trivialEngine
    ⟨[], "let mut x".toList⟩ (4, 8) 4 8 ["y".toList] (4, 5)
    ⟨[], "let yx".toList⟩ (by decide)

/-! ### C8: the matching-paren operation -/

/-- C8: with the selection endpoints on character boundaries,
`matching-paren` never panics; it succeeds exactly when the selection is
one byte wide (a single one-byte character) and the bracket matcher
finds a match, the new selection being the matched bracket character's
position, and it fails with the recoverable `NoMatches` exactly when the
selection is not a single character or there is no match. On
`"foo(bar)"` with the selection covering `"("` it selects the matching
`")"`. -/
theorem C8_matching_paren :
    (∀ (engine : RegexEngine) (st : InterpState) (ospan : Nat × Nat)
        (a b : Nat) (args : List (List Char)),
      isBoundary st.haystack a = true → isBoundary st.haystack b = true →
      b - a = 1 →
      TextOperation.apply .MatchingParen engine st ospan (a, b) args ≠ none) ∧
    (∀ (engine : RegexEngine) (st : InterpState) (ospan : Nat × Nat)
        (a b : Nat) (args : List (List Char)) (r : (Nat × Nat) × InterpState),
      TextOperation.apply .MatchingParen engine st ospan (a, b) args
          = some (.ok r)
        ↔ b - a = 1 ∧ ∃ mp, find_matching_paren st.haystack a = some (some mp) ∧
            r = ((mp, mp + 1), st)) ∧
    (∀ (engine : RegexEngine) (st : InterpState) (ospan : Nat × Nat)
        (a b : Nat) (args : List (List Char)),
      TextOperation.apply .MatchingParen engine st ospan (a, b) args
          = some (.error (.NoMatches .MatchingParen))
        ↔ (b - a ≠ 1 ∨ find_matching_paren st.haystack a = some none)) ∧
    TextOperation.apply .MatchingParen trivialEngine
        ⟨[], "foo(bar)".toList⟩ (0, 8) (3, 4) []
      = some (.ok ((7, 8), ⟨[], "foo(bar)".toList⟩)) := by
  refine ⟨?_, ?_, ?_, by decide⟩
  · intro engine st ospan a b args hb1 hb2 hlen
    simp only [TextOperation.apply]
    rw [if_neg (not_not_intro hlen)]
    have hb2a : isBoundary st.haystack (a + 1) = true := by
      have hba : b = a + 1 := by omega
      rwa [hba] at hb2
    rcases hf : find_matching_paren st.haystack a with _ | r
    · exact absurd hf (find_matching_paren_ne_none hb1 hb2a)
    rcases r with _ | mp <;> simp [hf]
  · intro engine st ospan a b args r
    simp only [TextOperation.apply]
    by_cases hlen : b - a = 1
    · rw [if_neg (not_not_intro hlen)]
      rcases hf : find_matching_paren st.haystack a with _ | rr
      · simp [hf, hlen]
      rcases rr with _ | mp <;> simp [hf, hlen]
      exact eq_comm
    · rw [if_pos hlen]
      simp [hlen]
  · intro engine st ospan a b args
    simp only [TextOperation.apply]
    by_cases hlen : b - a = 1
    · rw [if_neg (not_not_intro hlen)]
      rcases hf : find_matching_paren st.haystack a with _ | rr
      · simp [hf, hlen]
      rcases rr with _ | mp <;> simp [hf, hlen]
    · rw [if_pos hlen]
      simp [hlen]

/-- Witness for C8's universally quantified parts at a concrete input:
the `"foo(bar)"` scenario satisfies the boundary hypotheses and the
success characterization. -/
theorem C8_witness :
    TextOperation.apply .MatchingParen trivialEngine
        ⟨[], "foo(bar)".toList⟩ (0, 8) (3, 4) [] ≠ none ∧
    (TextOperation.apply .MatchingParen trivialEngine
        ⟨[], "foo(bar)".toList⟩ (0, 8) (3, 4) []
      = some (.ok ((7, 8), ⟨[], "foo(bar)".toList⟩))
      ↔ (4 : Nat) - 3 = 1 ∧
        ∃ mp, find_matching_paren ("foo(bar)".toList) 3 = some (some mp) ∧
          (((7 : Nat), (8 : Nat)), (⟨[], "foo(bar)".toList⟩ : InterpState))
            = ((mp, mp + 1), ⟨[], "foo(bar)".toList⟩)) :=
  ⟨C8_matching_paren.1 trivialEngine ⟨[], "foo(bar)".toList⟩ (0, 8) 3 4 []
      (by decide) (by decide) (by decide),
    C8_matching_paren.2.1 trivialEngine ⟨[], "foo(bar)".toList⟩ (0, 8) 3 4 []
      ((7, 8), ⟨[], "foo(bar)".toList⟩)⟩

/-! ### C9: totality of the parens operation -/

theorem ascii_mem_ends {s : List Char} :
    ∀ {b k : Nat}, (∀ c ∈ s, c.utf8Size = 1) → b < k → k ≤ b + byteLen s →
      k ∈ (charIdx b s).map (fun p => p.1 + p.2.utf8Size) := by
  induction s with
  | nil =>
    intro b k _ h1 h2
    rw [show byteLen [] = 0 from rfl] at h2
    omega
  | cons c cs ih =>
    intro b k ha h1 h2
    have hc1 : c.utf8Size = 1 := ha c (by simp)
    rw [charIdx, List.map_cons, List.mem_cons]
    by_cases hk : k = b + 1
    · left
      simp [hc1, hk]
    · right
      have h3 : k ≤ b + 1 + byteLen cs := by
        rw [byteLen_cons, hc1] at h2
        omega
      have h4 := ih (fun d hd => ha d (List.mem_cons_of_mem _ hd))
        (show b + 1 < k by omega) h3
      rwa [hc1]

theorem isBoundary_of_ascii {s : List Char}
    (hascii : ∀ c ∈ s, c.utf8Size = 1) {k : Nat} (hk : k ≤ byteLen s) :
    isBoundary s k = true := by
  rw [isBoundary_iff]
  by_cases h0 : k = 0
  · subst h0
    exact List.mem_cons_self _ _
  · exact List.mem_cons_of_mem _
      (ascii_mem_ends hascii (by omega) (by omega))

theorem parensLoopF_total {h : List Char} (hascii : ∀ c ∈ h, c.utf8Size = 1) :
    ∀ (fuel start : Nat), start < fuel → start < byteLen h →
      (∃ s1 mp, find_matching_paren h s1 = some (some mp) ∧
        parensLoopF h fuel start
          = some (.ok (if mp < s1 then (mp, s1 + 1) else (s1, mp + 1)))) ∨
      (parensLoopF h fuel start = some (.error (.NoMatches .Parens)) ∧
        find_matching_paren h 0 = some none) := by
  intro fuel
  induction fuel with
  | zero => intro start h1 _; omega
  | succ n ih =>
    intro start h1 h2
    have hb1 : isBoundary h start = true :=
      isBoundary_of_ascii hascii (le_of_lt h2)
    have hb2 : isBoundary h (start + 1) = true :=
      isBoundary_of_ascii hascii (by omega)
    rcases hf : find_matching_paren h start with _ | rr
    · exact absurd hf (find_matching_paren_ne_none hb1 hb2)
    rcases rr with _ | mp
    · by_cases hz : start = 0
      · subst hz
        right
        refine ⟨?_, hf⟩
        rw [parensLoopF]
        simp [hf]
      · have hwb : walkBack h start < start := by
          rcases start with _ | k
          · omega
          · exact lt_of_le_of_lt (walkBack_le h k) (by omega)
        have hstep : parensLoopF h (n + 1) start
            = parensLoopF h n (walkBack h start) := by
          rw [parensLoopF]
          simp [hf, hz]
        rcases ih (walkBack h start) (by omega) (by omega) with
          ⟨s1, mp, hf1, heq⟩ | ⟨heq, h0⟩
        · exact Or.inl ⟨s1, mp, hf1, hstep.trans heq⟩
        · exact Or.inr ⟨hstep.trans heq, h0⟩
    · left
      refine ⟨start, mp, hf, ?_⟩
      rw [parensLoopF]
      simp [hf]

/-- C9, amended: over buffers of single-byte characters and selections
whose start lies strictly below the buffer's byte length, the `parens`
operation is total over recoverable outcomes: it never panics and never
violates the bracket matcher's precondition, returning either the span
delimited by a bracket found at the (walked-back) start and its match,
or the recoverable `NoMatches` error — the latter only when even
position 0 yields no match. -/
theorem C9_parens_total {engine : RegexEngine} {st : InterpState}
    {ospan : Nat × Nat} {a b : Nat} {args : List (List Char)}
    (hascii : ∀ c ∈ st.haystack, c.utf8Size = 1)
    (ha : a < byteLen st.haystack) :
    (∃ s1 mp, find_matching_paren st.haystack s1 = some (some mp) ∧
      TextOperation.apply .Parens engine st ospan (a, b) args
        = some (.ok ((if mp < s1 then (mp, s1 + 1) else (s1, mp + 1)), st))) ∨
    (TextOperation.apply .Parens engine st ospan (a, b) args
        = some (.error (.NoMatches .Parens)) ∧
      find_matching_paren st.haystack 0 = some none) := by
  have htot := parensLoopF_total hascii (a + 1) a (by omega) ha
  simp only [TextOperation.apply]
  rcases htot with ⟨s1, mp, hf1, heq⟩ | ⟨heq, h0⟩
  · exact Or.inl ⟨s1, mp, hf1, by rw [heq]⟩
  · exact Or.inr ⟨by rw [heq], h0⟩

/-- C9, counterexample to the claim as stated: on buffer `"ab"` the
in-bounds selection `2..2` starts on a character boundary, yet `parens`
probes byte offset 2, whose successor offset 3 is not a boundary: the
bracket matcher's fatal precondition is violated (a panic, not a
recoverable error). -/
theorem C9_counterexample :
    isBoundary ("ab".toList) 2 = true ∧ 2 ≤ byteLen ("ab".toList) ∧
    TextOperation.apply .Parens trivialEngine
        ⟨[], "ab".toList⟩ (0, 0) (2, 2) [] = none := by
  decide

/-- Witness for the amended C9 at a concrete input. -/
theorem C9_witness :
    (∃ s1 mp, find_matching_paren ("fo(ba)x".toList) s1 = some (some mp) ∧
      TextOperation.apply .Parens trivialEngine
          ⟨[], "fo(ba)x".toList⟩ (0, 0) (4, 5) []
        = some (.ok ((if mp < s1 then (mp, s1 + 1) else (s1, mp + 1)),
            ⟨[], "fo(ba)x".toList⟩))) ∨
    (TextOperation.apply .Parens trivialEngine
          ⟨[], "fo(ba)x".toList⟩ (0, 0) (4, 5) []
        = some (.error (.NoMatches .Parens)) ∧
      find_matching_paren ("fo(ba)x".toList) 0 = some none) :=
  @C9_parens_total trivialEngine ⟨[], "fo(ba)x".toList⟩ (0, 0) 4 5 []
    (by decide) (by decide)

/-! ## operation.rs `Operation::run` and message.rs model -/

/-- A diagnostic whose `compute_diffs` fails with `Err(())` breaks the
main loop: the changes accumulated from the earlier diagnostics are kept
and nothing after the failing diagnostic is processed. -/
theorem collectChanges_break (op : Operation) (engine : RegexEngine)
    (sp : CompilerMessage → Bool)
    (pre post : List CompilerMessage) (bad : CompilerMessage)
    (hpre : ∀ m ∈ pre, sp m = true →
      ∃ cs, op.compute_diffs engine m = some (.ok cs))
    (hbadsel : sp bad = true)
    (hbad : op.compute_diffs engine bad = some (.error ())) :
    collectChanges op engine sp false (pre ++ bad :: post)
      = collectChanges op engine sp false pre := by
  induction pre with
  | nil =>
    simp only [List.nil_append, collectChanges, hbadsel, if_true, hbad]
  | cons m pre ih =>
    simp only [List.cons_append, collectChanges]
    by_cases hm : sp m = true
    · simp only [hm, if_true]
      obtain ⟨cs, hcs⟩ := hpre m (by simp) hm
      simp only [hcs, Bool.false_eq_true, if_false, List.append_eq]
      rw [ih (fun m2 hm2 => hpre m2 (List.mem_cons_of_mem _ hm2))]
    · simp only [hm, if_false]
      exact ih (fun m2 hm2 => hpre m2 (List.mem_cons_of_mem _ hm2))

/-- C2: when one diagnostic's interpreter execution raises a stop-all
error, processing of further diagnostics stops, but every patch
synthesized from the diagnostics processed before the abort is still in
the aggregated changeset, and in write mode the writes performed are
exactly those of a run containing only the earlier diagnostics. -/
theorem C2_fatal_error_retains_earlier_patches
    (op : Operation) (engine : RegexEngine)
    (sp : CompilerMessage → Bool) (fs : String → List Nat)
    (pre post : List CompilerMessage) (bad : CompilerMessage)
    (hpre : ∀ m ∈ pre, sp m = true →
      ∃ cs, op.compute_diffs engine m = some (.ok cs))
    (hbadsel : sp bad = true)
    (hbad : op.compute_diffs engine bad = some (.error ())) :
    collectChanges op engine sp false (pre ++ bad :: post)
      = collectChanges op engine sp false pre ∧
    mainWrites op engine sp false fs true (pre ++ bad :: post)
      = mainWrites op engine sp false fs true pre := by
  have h1 := collectChanges_break op engine sp pre post bad hpre hbadsel hbad
  refine ⟨h1, ?_⟩
  unfold mainWrites
  rw [h1]

/-- Witness for C2 at the concrete two-diagnostic run. -/
theorem C2_witness :
    collectChanges exampleProgram trivialEngine (fun _ => true) false
        ([exampleMsgEmpty] ++ exampleMsgUnderflow :: [])
      = collectChanges exampleProgram trivialEngine (fun _ => true) false
        [exampleMsgEmpty] ∧
    mainWrites exampleProgram trivialEngine (fun _ => true) false exampleFs true
        ([exampleMsgEmpty] ++ exampleMsgUnderflow :: [])
      = mainWrites exampleProgram trivialEngine (fun _ => true) false exampleFs
        true [exampleMsgEmpty] :=
  C2_fatal_error_retains_earlier_patches exampleProgram trivialEngine
    (fun _ => true) exampleFs [exampleMsgEmpty] [] exampleMsgUnderflow
    (fun m hm _ => ⟨[Change.mk "f" (Patch.mk 0 2 [])],
      by rw [show m = exampleMsgEmpty from by simpa using hm]; decide⟩)
    rfl (by decide)

/-- A span whose fragment loop raises a stop-all error aborts
`computeDiffsSpans` with `Err(())`, wherever it sits in the diagnostic,
provided the spans before it completed without a panic and without a
fatal error themselves (each either succeeded, or failed recoverably and
was skipped by `continue 'spans`) — the decomposition at the first fatal
span of any run that reaches a fatal error. -/
theorem computeDiffsSpans_fatal (op : Operation) (engine : RegexEngine)
    (preS restS : List SpanAndSuggestions) (sas : SpanAndSuggestions)
    (e : ExecError)
    (hpreS : ∀ s ∈ preS,
      (∃ t, processSpanParts op engine s.suggestions s.primary.text
        = some (.ok t)) ∨
      (∃ e2, processSpanParts op engine s.suggestions s.primary.text
        = some (.error e2) ∧ e2.stop_all = false))
    (hrun : processSpanParts op engine sas.suggestions sas.primary.text
      = some (.error e))
    (hstop : e.stop_all = true) :
    computeDiffsSpans op engine (preS ++ sas :: restS) = some (.error ()) := by
  induction preS with
  | nil =>
    simp only [List.nil_append, computeDiffsSpans, hrun, hstop, if_true]
  | cons s preS ih =>
    have htail := ih (fun s2 hs2 => hpreS s2 (List.mem_cons_of_mem _ hs2))
    rcases hpreS s (by simp) with ⟨t, ht⟩ | ⟨e2, he2, hstop2⟩
    · simp only [List.cons_append, computeDiffsSpans, ht, List.append_eq]
      rw [htail]
    · simp only [List.cons_append, computeDiffsSpans, he2, hstop2,
        Bool.false_eq_true, if_false]
      exact htail

/-- C1, amended: an interpreter-fatal (stop-all) error while processing
any span of one diagnostic — the spans before it having completed
without a fatal error — makes that diagnostic's `compute_diffs` fail,
and the run stops processing further diagnostics — but the patches
already computed from earlier diagnostics are NOT discarded: they are
aggregated and, in write mode, written, exactly as in a run that ends
just before the failing diagnostic. -/
theorem C1_fatal_error_stops_processing_keeps_patches
    (op : Operation) (engine : RegexEngine)
    (sp : CompilerMessage → Bool) (fs : String → List Nat)
    (pre post : List CompilerMessage) (bad : CompilerMessage)
    (preS restS : List SpanAndSuggestions) (sas0 : SpanAndSuggestions)
    (e : ExecError)
    (hstruct : bad.spans_with_suggestions = preS ++ sas0 :: restS)
    (hpreS : ∀ s ∈ preS,
      (∃ t, processSpanParts op engine s.suggestions s.primary.text
        = some (.ok t)) ∨
      (∃ e2, processSpanParts op engine s.suggestions s.primary.text
        = some (.error e2) ∧ e2.stop_all = false))
    (hrun : processSpanParts op engine sas0.suggestions sas0.primary.text
        = some (.error e))
    (hstop : e.stop_all = true)
    (hpre : ∀ m ∈ pre, sp m = true →
      ∃ cs, op.compute_diffs engine m = some (.ok cs))
    (hbadsel : sp bad = true) :
    op.compute_diffs engine bad = some (.error ()) ∧
    collectChanges op engine sp false (pre ++ bad :: post)
      = collectChanges op engine sp false pre ∧
    mainWrites op engine sp false fs true (pre ++ bad :: post)
      = mainWrites op engine sp false fs true pre := by
  have hbad : op.compute_diffs engine bad = some (.error ()) := by
    unfold Operation.compute_diffs
    rw [hstruct]
    exact computeDiffsSpans_fatal op engine preS restS sas0 e hpreS hrun hstop
  have h1 := collectChanges_break op engine sp pre post bad hpre hbadsel hbad
  refine ⟨hbad, h1, ?_⟩
  unfold mainWrites
  rw [h1]

/-- C1, counterexample to the claim as stated: in a two-diagnostic run
whose second diagnostic raises `StackUnderflow` (a stop-all error), the
patch computed from the first diagnostic is retained in the aggregation
and, in write mode, the file IS written — its contents change — whereas
the claim says the entire run aborts, no files are written, and the
already-computed patches are discarded. -/
theorem C1_counterexample :
    processSpanParts exampleProgram trivialEngine []
        [⟨1, 1, "ab".toList⟩]
      = some (.error (.StackUnderflow .StackDrop)) ∧
    (ExecError.StackUnderflow .StackDrop).stop_all = true ∧
    exampleProgram.compute_diffs trivialEngine exampleMsgUnderflow
      = some (.error ()) ∧
    collectChanges exampleProgram trivialEngine (fun _ => true) false
        [exampleMsgEmpty, exampleMsgUnderflow]
      = some [Change.mk "f" (Patch.mk 0 2 [])] ∧
    mainWrites exampleProgram trivialEngine (fun _ => true) false exampleFs
        true [exampleMsgEmpty, exampleMsgUnderflow]
      = some [("f", [99])] ∧
    [99] ≠ exampleFs "f" := by
  decide

/-- Witness for the amended C1 at a concrete two-diagnostic run whose
failing diagnostic raises the fatal error at its second primary span,
the first span having succeeded. -/
theorem C1_witness :
    exampleProgram.compute_diffs trivialEngine exampleMsgUnderflow2
      = some (.error ()) ∧
    collectChanges exampleProgram trivialEngine (fun _ => true) false
        ([exampleMsgEmpty] ++ exampleMsgUnderflow2 :: [])
      = collectChanges exampleProgram trivialEngine (fun _ => true) false
        [exampleMsgEmpty] ∧
    mainWrites exampleProgram trivialEngine (fun _ => true) false exampleFs
        true ([exampleMsgEmpty] ++ exampleMsgUnderflow2 :: [])
      = mainWrites exampleProgram trivialEngine (fun _ => true) false
        exampleFs true [exampleMsgEmpty] :=
  C1_fatal_error_stops_processing_keeps_patches exampleProgram trivialEngine
    (fun _ => true) exampleFs [exampleMsgEmpty] [] exampleMsgUnderflow2
    [⟨⟨"f", 4, 6, 2, [], none, true, none, none⟩, []⟩] []
    ⟨⟨"f", 4, 6, 2, [⟨1, 1, "ab".toList⟩], none, true, none, none⟩, []⟩
    (.StackUnderflow .StackDrop)
    (by decide)
    (fun s hs => Or.inl ⟨[], by
      rw [show s = ⟨⟨"f", 4, 6, 2, [], none, true, none, none⟩, []⟩ from
        by simpa using hs]
      decide⟩)
    (by decide) (by decide)
    (fun m hm _ => ⟨[Change.mk "f" (Patch.mk 0 2 [])],
      by rw [show m = exampleMsgEmpty from by simpa using hm]; decide⟩)
    rfl

/-! ### C5: the suggestion fold -/

/-- C5, amended: with auto-suggestion mode enabled the Edit Synthesizer
folds the eligible suggestions in descending order of suggestion start
(the processed sequence — the reverse of the stored ascending stable
sort — is descending); every fold step whose first-case offset
subtraction does not underflow re-anchors the selection by exactly the
specification's three-case rule while rewriting the fragment text at
the suggestion's range; a step where a suggestion ending at or before
the selection start carries replacement text longer than a selection
offset underflows the usize subtraction and panics instead; and the
fragment fold is exactly the fold of that guarded step. -/
theorem C5_suggestion_fold_descending_three_case :
    (∀ (m : CompilerMessage) (sas : SpanAndSuggestions),
      sas ∈ m.spans_with_suggestions →
      (sas.suggestions.reverse).Pairwise (fun x y : Sugg => y.1.1 ≤ x.1.1)) ∧
    (∀ (sel : Nat × Nat) (txt : List Char) (sugg : Sugg),
      applySuggestion sel txt sugg
        = if sugg.1.2 ≤ sel.1 ∧
            (sel.1 < byteLen sugg.2.1 ∨ sel.2 < byteLen sugg.2.1)
          then none
          else (replaceRange txt sugg.1.1 sugg.1.2 sugg.2.1).map
            (fun t2 => (specReanchor sugg.1 sugg.2.1 sel, t2))) ∧
    (∀ (op : Operation) (engine : RegexEngine) (suggs : List Sugg)
        (part : SpanText), op.suggestion = true →
      processFragment op engine suggs part
        = match suggs.reverse.foldlM
            (fun acc (sugg : Sugg) =>
              if sugg.1.2 ≤ acc.1.1 ∧
                  (acc.1.1 < byteLen sugg.2.1 ∨ acc.1.2 < byteLen sugg.2.1)
              then none
              else (replaceRange acc.2 sugg.1.1 sugg.1.2 sugg.2.1).map
                (fun t2 => (specReanchor sugg.1 sugg.2.1 acc.1, t2)))
            (part.highlighted_span, part.text) with
          | none => none
          | some (sel, tx) => op.run engine tx sel) := by
  have hstep : ∀ (sel : Nat × Nat) (txt : List Char) (sugg : Sugg),
      applySuggestion sel txt sugg
        = if sugg.1.2 ≤ sel.1 ∧
            (sel.1 < byteLen sugg.2.1 ∨ sel.2 < byteLen sugg.2.1)
          then none
          else (replaceRange txt sugg.1.1 sugg.1.2 sugg.2.1).map
            (fun t2 => (specReanchor sugg.1 sugg.2.1 sel, t2)) := by
    intro sel txt sugg
    simp only [applySuggestion]
    by_cases h1 : sugg.1.2 ≤ sel.1
    · by_cases h2 : sel.1 < byteLen sugg.2.1 ∨ sel.2 < byteLen sugg.2.1
      · rw [if_pos h1, if_pos h2,
          if_pos (show sugg.1.2 ≤ sel.1 ∧
            (sel.1 < byteLen sugg.2.1 ∨ sel.2 < byteLen sugg.2.1) from
              ⟨h1, h2⟩)]
        rfl
      · rw [if_pos h1, if_neg h2,
          if_neg (show ¬(sugg.1.2 ≤ sel.1 ∧
            (sel.1 < byteLen sugg.2.1 ∨ sel.2 < byteLen sugg.2.1)) from
              fun hc => h2 hc.2)]
        rw [show specReanchor sugg.1 sugg.2.1 sel
            = (sel.1 - byteLen sugg.2.1, sel.2 - byteLen sugg.2.1) from by
          unfold specReanchor
          rw [if_pos h1]]
        rfl
    · have hsel :
          (if sugg.1.2 ≤ sel.2 then
              some (sugg.1.1, sugg.1.1 + (sel.2 - sugg.1.2))
            else if sugg.1.1 ≤ sel.2 then
              some (min sel.1 sugg.1.1, sugg.1.1)
            else some sel)
          = some (specReanchor sugg.1 sugg.2.1 sel) := by
        unfold specReanchor
        rw [if_neg h1, min_def]
        by_cases h2 : sugg.1.2 ≤ sel.2
        · rw [if_pos h2, if_pos h2]
        · rw [if_neg h2, if_neg h2]
          by_cases h3 : sugg.1.1 ≤ sel.2
          · rw [if_pos h3, if_pos h3]
          · rw [if_neg h3, if_neg h3]
      rw [if_neg h1,
        if_neg (show ¬(sugg.1.2 ≤ sel.1 ∧
          (sel.1 < byteLen sugg.2.1 ∨ sel.2 < byteLen sugg.2.1)) from
            fun hc => h1 hc.1),
        hsel]
      rfl
  refine ⟨?_, hstep, ?_⟩
  · intro m sas hmem
    unfold CompilerMessage.spans_with_suggestions at hmem
    obtain ⟨primary, hp, rfl⟩ := List.mem_map.mp hmem
    rw [List.pairwise_reverse]
    exact List.sorted_insertionSort _ _
  · intro op engine suggs part hsugg
    simp only [processFragment, hsugg, if_true]
    have hfun : (fun (acc : (Nat × Nat) × List Char) (sugg : Sugg) =>
        applySuggestion acc.1 acc.2 sugg)
      = (fun (acc : (Nat × Nat) × List Char) (sugg : Sugg) =>
        if sugg.1.2 ≤ acc.1.1 ∧
            (acc.1.1 < byteLen sugg.2.1 ∨ acc.1.2 < byteLen sugg.2.1)
        then none
        else (replaceRange acc.2 sugg.1.1 sugg.1.2 sugg.2.1).map
          (fun t2 => (specReanchor sugg.1 sugg.2.1 acc.1, t2))) := by
      funext acc sugg
      exact hstep acc.1 acc.2 sugg
    rw [hfun]

/-- C5, counterexample to the claim as stated: a suggestion ending at
or before the selection start whose replacement text is longer than the
selection offsets makes the first case's usize subtraction underflow —
a panic in debug builds, a wrap in release builds — instead of
re-anchoring the selection by the claimed rule; the text rewrite itself
would succeed, so the abort comes solely from the offset subtraction,
and it aborts the whole fragment fold. -/
theorem C5_counterexample :
    applySuggestion (1, 2) ("xy".toList)
        ((0, 1), "world".toList, .MachineApplicable) = none ∧
    (replaceRange ("xy".toList) 0 1 ("world".toList)).isSome = true ∧
    ((0, 1) : Nat × Nat).2 ≤ 1 ∧ (1 : Nat) < byteLen ("world".toList) ∧
    processFragment ⟨true, []⟩ trivialEngine
        [((0, 1), "world".toList, .MachineApplicable)] ⟨2, 3, "xy".toList⟩
      = none := by
  decide

/-- Witness for the amended C5's quantified parts at concrete inputs:
the descending order on a real diagnostic's suggestion list, and the
guarded step at a non-underflowing input, where it is the three-case
rule. -/
theorem C5_witness :
    (((⟨⟨"g", 0, 2, 1, [⟨1, 3, "xy".toList⟩], none, true, none, none⟩,
        [((0, 1), "z".toList, .MachineApplicable)]⟩ :
        SpanAndSuggestions).suggestions.reverse).Pairwise
      (fun x y : Sugg => y.1.1 ≤ x.1.1)) ∧
    applySuggestion (1, 2) ("xy".toList) ((0, 1), "z".toList, .MachineApplicable)
      = if (1 : Nat) ≤ 1 ∧
          ((1 : Nat) < byteLen ("z".toList) ∨ (2 : Nat) < byteLen ("z".toList))
        then none
        else (replaceRange ("xy".toList) 0 1 ("z".toList)).map
          (fun t2 => (specReanchor (0, 1) ("z".toList) (1, 2), t2)) :=
  ⟨C5_suggestion_fold_descending_three_case.1 exampleMsgSugg
      ⟨⟨"g", 0, 2, 1, [⟨1, 3, "xy".toList⟩], none, true, none, none⟩,
        [((0, 1), "z".toList, .MachineApplicable)]⟩ (by decide),
    C5_suggestion_fold_descending_three_case.2.1 (1, 2) ("xy".toList)
      ((0, 1), "z".toList, .MachineApplicable)⟩

end Refix
